import Mathlib

/-!
Shallow embedding of the Itsuku proof-of-work C sources
(`src/itsuku.c`, `src/memory.c`, `src/merkle_tree.c`, `src/hashmap.c`,
`src/proof.c`, `src/config.c`, `src/challenge_id.c`).

Modelling conventions:
* `size_t`/`uint64_t` values are `Nat`s; wherever C arithmetic wraps, an
  explicit `% 2 ^ 64` appears.  `uint8_t` reads carry an explicit `% 256`
  (the C type system truncates to a byte at those points).
* Byte strings are `List Nat`; an `Element` (64 bytes, eight u64 lanes)
  is a `List Nat` of its eight lanes.
* The BLAKE3 hash is a vendored third-party library (not part of this
  repository's sources), so it is abstracted as a parameter
  `H : List Nat → Nat → List Nat` (message bytes, requested output length).
* `MerkleTree__calculate_node_size` uses IEEE-double `log2`/`ceil`, which a
  shallow embedding cannot reproduce exactly; it is abstracted as a
  parameter `NS : Config → Nat`.  Both the prover and verifier call that
  same function on the same `Config`, which is all the theorems need.
* The C `HashMap` (insert-or-replace on duplicate keys, `NULL` for a
  missing key) is modelled as an association list with replace-on-insert
  (`mput`) and first-match lookup (`mget`).
-/

namespace Itsuku

def two64 : Nat := 2 ^ 64

/-- Little-endian u64 to 8 bytes, as `u64_to_le_bytes` in `memory.c`. -/
def u64ToLeBytes (x : Nat) : List Nat :=
  [x % 256, x / 2 ^ 8 % 256, x / 2 ^ 16 % 256, x / 2 ^ 24 % 256,
   x / 2 ^ 32 % 256, x / 2 ^ 40 % 256, x / 2 ^ 48 % 256, x / 2 ^ 56 % 256]

/-- Little-endian accumulation of a byte list; each entry is read through a
`uint8_t`, hence the `% 256`. -/
def leToNat : List Nat → Nat
  | [] => 0
  | b :: rest => b % 256 + 256 * leToNat rest

/-- Reads the first 8 bytes little-endian, as `u64_from_le_bytes`. -/
def u64FromLeBytes (l : List Nat) : Nat := leToNat (l.take 8)

/-- Reads the first 4 bytes little-endian, as `le_bytes_to_u32` in `itsuku.c`. -/
def u32FromLeBytes (l : List Nat) : Nat := leToNat (l.take 4)

/-- Wrapping 64-bit subtraction of values already reduced mod `2 ^ 64`. -/
def sub64 (a b : Nat) : Nat := (a % two64 + (two64 - b % two64)) % two64

/-- Embeds `calculate_argon2_index` from `src/itsuku.c`. -/
def calculate_argon2_index (seed_bytes : List Nat) (original_index : Nat) : Nat :=
  let s := u32FromLeBytes seed_bytes
  let i := original_index % two64
  let x := (s * s) % two64 / 2 ^ 32
  let y := (i * x) % two64 / 2 ^ 32
  sub64 (sub64 i 1) y

/-- Embeds `calculate_phi_variant_index` from `src/itsuku.c`: the φ-variant
table followed by the clamp `if (index >= original_index) index = original_index - 1`.
The C `default: abort()` case is unreachable because `k % 12 < 12`; the final
match arm is case 11. -/
def calculate_phi_variant_index (original_index argon2_index variant_identifier : Nat) : Nat :=
  if original_index = 0 then 0
  else
    let index :=
      match variant_identifier % 12 with
      | 0 => original_index - 1
      | 1 => argon2_index
      | 2 => ((argon2_index + original_index) % two64) / 2
      | 3 => ((original_index * 7) % two64) / 8
      | 4 => ((argon2_index + (original_index * 3) % two64) % two64) / 4
      | 5 => ((argon2_index + (original_index * 5) % two64) % two64) / 8
      | 6 => ((original_index * 3) % two64) / 4
      | 7 => original_index / 2
      | 8 => original_index / 4
      | 9 => 0
      | 10 => ((argon2_index * 7) % two64) / 8
      | _ => ((original_index * 7) % two64) / 8
    if original_index ≤ index then original_index - 1 else index

/-- Spec §4.1 table expression for `phi_variant` (wrapping arithmetic,
floor division), written from the specification's table. -/
def phiTableSpec (i phi k : Nat) : Nat :=
  match k % 12 with
  | 0 => i - 1
  | 1 => phi
  | 2 => ((phi + i) % two64) / 2
  | 3 => ((7 * i) % two64) / 8
  | 4 => ((phi + (3 * i) % two64) % two64) / 4
  | 5 => ((phi + (5 * i) % two64) % two64) / 8
  | 6 => ((3 * i) % two64) / 4
  | 7 => i / 2
  | 8 => i / 4
  | 9 => 0
  | 10 => ((7 * phi) % two64) / 8
  | _ => ((7 * i) % two64) / 8

/-- The claim's reading of `phi_variant`: table expression reduced modulo `i`
(`0` for `i = 0`). -/
def phi_variant_spec (i phi k : Nat) : Nat :=
  if i = 0 then 0 else phiTableSpec i phi k % i

/-- Spec formula for `argon2_index`: `(i − 1) − ((i · ((s·s) >> 32)) >> 32)`
with 64-bit wrapping arithmetic, written over the integers with a final
reduction modulo `2 ^ 64`. -/
def argon2_spec (s i : Nat) : Nat :=
  let x : Nat := s * s / 2 ^ 32
  let y : Nat := (i * x) % 2 ^ 64 / 2 ^ 32
  (((i : Int) - 1 - (y : Int)) % ((2 : Int) ^ 64)).toNat

/-- Leading zero count of one nonzero byte, bit 7 first, as the inner loop of
`Proof__leading_zeros`. -/
def clzByte (b : Nat) : Nat :=
  if b.testBit 7 then 0
  else if b.testBit 6 then 1
  else if b.testBit 5 then 2
  else if b.testBit 4 then 3
  else if b.testBit 3 then 4
  else if b.testBit 2 then 5
  else if b.testBit 1 then 6
  else if b.testBit 0 then 7
  else 8

/-- Embeds `Proof__leading_zeros` from `src/proof.c` (the array is read
through `uint8_t`, hence `% 256`). -/
def leadingZeros : List Nat → Nat
  | [] => 0
  | b :: rest => if b % 256 = 0 then 8 + leadingZeros rest else clzByte (b % 256)

/-- MSB-first bit expansion of a byte list, for the leading-zero law. -/
def bitsOfByte (b : Nat) : List Bool :=
  (List.range 8).map (fun k => b.testBit (7 - k))

/-- Spec-side leading-zero count: zeros at the head of the concatenated
MSB-first bit string. -/
def specLeadingZeroBits (bs : List Nat) : Nat :=
  ((bs.flatMap bitsOfByte).takeWhile (fun bit => bit = false)).length

/-! ### The C `HashMap` (src/hashmap.c), as an association list.
`HashMap__insert` replaces the value when the key is present, otherwise adds a
new entry; `HashMap__get` yields `NULL` for a missing key.  Iteration order in
C is bucket order; the results proved below do not depend on it, and the model
iterates in insertion order. -/

/-- Lookup, as `HashMap__get`. -/
def mget {α : Type} : List (Nat × α) → Nat → Option α
  | [], _ => none
  | (k, v) :: rest, key => if k = key then some v else mget rest key

/-- Insert-or-replace, as `HashMap__insert`. -/
def mput {α : Type} : List (Nat × α) → Nat → α → List (Nat × α)
  | [], key, v => [(key, v)]
  | (k, w) :: rest, key, v =>
      if k = key then (k, v) :: rest else (k, w) :: mput rest key v

/-! ### Elements (src/memory.h, src/memory.c).
An `Element` is 64 bytes viewed as eight little-endian u64 lanes; the model
keeps the lane list. -/

def LANES : Nat := 8

abbrev Element := List Nat

/-- `Element__zero`. -/
def elemZero : Element := List.replicate LANES 0

/-- `Element__add_assign`: lane-wise wrapping addition. -/
def elemAdd (a b : Element) : Element :=
  List.zipWith (fun x y => (x + y) % two64) a b

/-- `Element__to_le_bytes`: the 64-byte little-endian view. -/
def elemToLeBytes (e : Element) : List Nat := e.flatMap u64ToLeBytes

/-- Loads 64 bytes into the eight lanes (the effect of `blake3_hasher_finalize`
or `memcpy` writing into `Element.data` on a little-endian machine). -/
def elemOfLeBytes (bytes : List Nat) : Element :=
  (List.range LANES).map (fun i => u64FromLeBytes ((bytes.drop (8 * i)).take 8))

/-- Lane loop of `Element__bitxor_assign__bytes`: lanes with absolute index
below `lanes` are XORed with the corresponding 8-byte little-endian slice. -/
def xorLaneLoop (bytes : List Nat) (lanes : Nat) : Nat → List Nat → List Nat
  | _, [] => []
  | i, lane :: rest =>
      (if i < lanes then Nat.xor lane (u64FromLeBytes ((bytes.drop (8 * i)).take 8)) else lane)
        :: xorLaneLoop bytes lanes (i + 1) rest

/-- `Element__bitxor_assign__bytes`: only `min(len, 64) / 8` whole lanes are
processed. -/
def elemXorBytes (e : Element) (bytes : List Nat) : Element :=
  let limit := min bytes.length 64
  let lanes := limit / 8
  xorLaneLoop bytes lanes 0 e

/-- The claim's reading of the XOR-with-byte-string operation: XOR the first
`min(len, 64)` bytes into the element's little-endian byte view, byte for
byte, leaving the remaining bytes unchanged. -/
def elemXorBytesClaim (e : Element) (bytes : List Nat) : Element :=
  let m := min bytes.length 64
  let eb := elemToLeBytes e
  elemOfLeBytes (List.zipWith Nat.xor (eb.take m) (bytes.take m) ++ eb.drop m)

/-! ### Config (src/config.h, src/config.c). -/

structure Config where
  chunk_size : Nat
  chunk_count : Nat
  antecedent_count : Nat
  difficulty_bits : Nat
  search_length : Nat
deriving DecidableEq, Repr

/-- `Config__default`. -/
def Config.default : Config :=
  { chunk_size := 2 ^ 15, chunk_count := 2 ^ 10, antecedent_count := 4,
    difficulty_bits := 24, search_length := 9 }

/-! ### Memory (src/memory.c).  The BLAKE3 hash is the abstract parameter
`H : List Nat → Nat → List Nat` (message, requested output length). -/

/-- `Memory__compress`: the compression Φ.  The C call converts the global
index to `uint64_t`, hence the `% 2 ^ 64` on the XOR operand. -/
def compress (H : List Nat → Nat → List Nat) (antecedents : List Element)
    (antecedent_count : Nat) (global_element_index : Nat) (challenge : List Nat) : Element :=
  let even_count := (antecedent_count + 1) / 2
  let sum_even :=
    (List.range even_count).foldl (fun acc k => elemAdd acc (antecedents.getD (2 * k) elemZero)) elemZero
  let sum_even := sum_even.set 0 (Nat.xor (sum_even.getD 0 0) (global_element_index % two64))
  let odd_count := antecedent_count / 2
  let sum_odd :=
    (List.range odd_count).foldl (fun acc k => elemAdd acc (antecedents.getD (2 * k + 1) elemZero)) elemZero
  let sum_odd := elemXorBytes sum_odd challenge
  elemOfLeBytes (H (elemToLeBytes sum_even ++ elemToLeBytes sum_odd) 64)

/-- `Memory__get_antecedent_indices`: seed for the φ-variants comes from the
previous element of the chunk; each variant index is reduced `% chunk_size`.
For `element_index < antecedent_count` the C function returns without writing
the buffer (callers never use that case); the model returns `[]`. -/
def getAntecedentIndices (cfg : Config) (chunk : List Element) (element_index : Nat) : List Nat :=
  if element_index < cfg.antecedent_count then []
  else
    let prev := chunk.getD (element_index - 1) elemZero
    let seed_4 := (elemToLeBytes prev).take 4
    let phi := calculate_argon2_index seed_4 element_index
    (List.range cfg.antecedent_count).map
      (fun variant => calculate_phi_variant_index element_index phi variant % cfg.chunk_size)

/-- One step of `Memory__build_chunk`: the element written at offset
`acc.length` of the chunk, given the prefix built so far.  Offsets below
`antecedent_count` are hash-seeded; the rest are compressed from in-chunk
antecedents. -/
def chunkStep (H : List Nat → Nat → List Nat) (cfg : Config) (challenge : List Nat)
    (chunk_index : Nat) (acc : List Element) : Element :=
  let m := acc.length
  if m < cfg.antecedent_count then
    elemOfLeBytes (H (u64ToLeBytes m ++ u64ToLeBytes chunk_index ++ challenge) 64)
  else
    let idxs := getAntecedentIndices cfg acc m
    let antecedents := idxs.map (fun a => acc.getD a elemZero)
    let g := chunk_index * cfg.chunk_size + m
    compress H antecedents cfg.antecedent_count g challenge

/-- First `count` elements of a chunk, built sequentially (the loop of
`Memory__build_chunk`). -/
def buildChunkN (H : List Nat → Nat → List Nat) (cfg : Config) (challenge : List Nat)
    (chunk_index : Nat) : Nat → List Element
  | 0 => []
  | count + 1 =>
      let acc := buildChunkN H cfg challenge chunk_index count
      acc ++ [chunkStep H cfg challenge chunk_index acc]

/-- `Memory__build_chunk`. -/
def buildChunk (H : List Nat → Nat → List Nat) (cfg : Config) (challenge : List Nat)
    (chunk_index : Nat) : List Element :=
  buildChunkN H cfg challenge chunk_index cfg.chunk_size

structure Memory where
  config : Config
  chunks : List (List Element)
deriving DecidableEq, Repr

/-- `Memory__new` followed by `Memory__build_all_chunks`. -/
def Memory.buildAll (H : List Nat → Nat → List Nat) (cfg : Config) (challenge : List Nat) : Memory :=
  { config := cfg, chunks := (List.range cfg.chunk_count).map (buildChunk H cfg challenge) }

/-- `Memory__get`: `NULL` (here `none`) when the chunk index is out of range. -/
def Memory.get? (mem : Memory) (index : Nat) : Option Element :=
  let chunk_index := index / mem.config.chunk_size
  let element_index := index % mem.config.chunk_size
  if mem.config.chunk_count ≤ chunk_index then none
  else some ((mem.chunks.getD chunk_index []).getD element_index elemZero)

/-- `Memory__get_element_copy_for_search` in `proof.c`: a missing element reads
as the zero element. -/
def searchGetElement (mem : Memory) (index : Nat) : Element :=
  (mem.get? index).getD elemZero

/-- `Memory__trace_element`: a seed-phase leaf discloses itself; a compressed
leaf discloses its `antecedent_count` antecedents.  The out-of-range case
returns count 0 (here `[]`). -/
def Memory.traceElement (mem : Memory) (leaf_index : Nat) : List Element :=
  let cfg := mem.config
  let chunk_index := leaf_index / cfg.chunk_size
  if cfg.chunk_count ≤ chunk_index then []
  else
    let chunk := mem.chunks.getD chunk_index []
    let element_index := leaf_index % cfg.chunk_size
    if element_index < cfg.antecedent_count then [chunk.getD element_index elemZero]
    else
      (getAntecedentIndices cfg chunk element_index).map (fun a => chunk.getD a elemZero)

/-! ### Merkle tree (src/merkle_tree.c).
The flat byte buffer of `2T − 1` nodes of `node_size` bytes each is modelled
as a list of `2T − 1` byte lists.  `MerkleTree__calculate_node_size` computes
with IEEE doubles and is abstracted as the parameter `NS : Config → Nat`. -/

structure MerkleTree where
  config : Config
  node_size : Nat
  nodes : List (List Nat)
deriving DecidableEq, Repr

/-- `MerkleTree__get_node` (bounds-checked). -/
def MerkleTree.getNode? (t : MerkleTree) (index : Nat) : Option (List Nat) :=
  t.nodes.get? index

/-- `MerkleTree__compute_leaf_hash`: `H(le-bytes(element) ‖ I)` truncated to
`node_size` bytes. -/
def computeLeafHash (H : List Nat → Nat → List Nat) (challenge : List Nat)
    (e : Element) (node_size : Nat) : List Nat :=
  H (elemToLeBytes e ++ challenge) node_size

/-- `MerkleTree__compute_leaf_hashes`: writes leaf `i` at node `T − 1 + i`. -/
def computeLeafHashes (H : List Nat → Nat → List Nat) (challenge : List Nat)
    (mem : Memory) (node_size : Nat) (nodes : List (List Nat)) : List (List Nat) :=
  let element_count := mem.config.chunk_count * mem.config.chunk_size
  (List.range element_count).foldl
    (fun nd i =>
      nd.set (element_count - 1 + i) (computeLeafHash H challenge (searchGetElement mem i) node_size))
    nodes

/-- One parent write of `MerkleTree__compute_intermediate_nodes`:
`H(left ‖ right ‖ I)` truncated to `node_size`, children at `2p+1`, `2p+2`. -/
def interStep (H : List Nat → Nat → List Nat) (challenge : List Nat) (node_size : Nat)
    (nodes : List (List Nat)) (p : Nat) : List (List Nat) :=
  nodes.set p (H (nodes.getD (2 * p + 1) [] ++ nodes.getD (2 * p + 2) [] ++ challenge) node_size)

/-- The descending loop of `MerkleTree__compute_intermediate_nodes`
(`parent_index` from the argument down to 1). -/
def interDown (H : List Nat → Nat → List Nat) (challenge : List Nat) (node_size : Nat) :
    Nat → List (List Nat) → List (List Nat)
  | 0, nodes => nodes
  | p + 1, nodes => interDown H challenge node_size p (interStep H challenge node_size nodes (p + 1))

/-- `MerkleTree__compute_intermediate_nodes`: parents `T − 2 … 1`, then the
root.  For `T ≤ 1` the C loop's first out-of-range child read returns early
and the buffer is unchanged. -/
def computeIntermediates (H : List Nat → Nat → List Nat) (challenge : List Nat)
    (element_count node_size : Nat) (nodes : List (List Nat)) : List (List Nat) :=
  if element_count ≤ 1 then nodes
  else interStep H challenge node_size (interDown H challenge node_size (element_count - 2) nodes) 0

/-- `MerkleTree__new` followed by both compute passes. -/
def MerkleTree.build (H : List Nat → Nat → List Nat) (NS : Config → Nat)
    (cfg : Config) (challenge : List Nat) (mem : Memory) : MerkleTree :=
  let node_size := NS cfg
  let element_count := cfg.chunk_count * cfg.chunk_size
  let nodes0 := List.replicate (2 * element_count - 1) (List.replicate node_size 0)
  let nodes1 := computeLeafHashes H challenge mem node_size nodes0
  { config := cfg, node_size := node_size,
    nodes := computeIntermediates H challenge element_count node_size nodes1 }

/-- `MerkleTree__insert_node_copy`: inserts a copy of node `idx` when it is in
range. -/
def insertNodeCopy (t : MerkleTree) (m : List (Nat × List Nat)) (idx : Nat) :
    List (Nat × List Nat) :=
  match t.getNode? idx with
  | some nd => mput m idx nd
  | none => m

/-- `MerkleTree__trace_node` with explicit fuel (the C recursion descends from
`index` to its parent `(index − 1) / 2`, so fuel `index + 1` suffices). -/
def traceNodeAux (t : MerkleTree) : Nat → Nat → List (Nat × List Nat) → List (Nat × List Nat)
  | 0, _, m => m
  | fuel + 1, index, m =>
      if t.nodes.length ≤ index then m
      else
        let m1 := insertNodeCopy t m index
        if index = 0 then m1
        else
          let sibling := if index % 2 = 0 then index - 1 else index + 1
          let m2 := insertNodeCopy t m1 sibling
          traceNodeAux t fuel ((index - 1) / 2) m2

/-- `MerkleTree__trace_node`. -/
def MerkleTree.traceNode (t : MerkleTree) (index : Nat) (m : List (Nat × List Nat)) :
    List (Nat × List Nat) :=
  traceNodeAux t (index + 1) index m

/-! ### Proof search and verification (src/proof.c). -/

inductive VerificationError where
  | Ok
  | InvalidAntecedentCount
  | MissingOpeningForLeaf
  | LeafHashMismatch
  | IntermediateHashMismatch
  | MissingMerkleRoot
  | MalformedProofPath
  | UnprovenLeafInPath
  | DifficultyNotMet
  | RequiredElementMissing
  | MissingChildNode
deriving DecidableEq, Repr

structure Proof where
  config : Config
  challenge_id : List Nat
  nonce : Nat
  leaf_antecedents : List (Nat × List Element)
  tree_opening : List (Nat × List Nat)
deriving DecidableEq, Repr

/-- Root extension used by both `Proof__search` and `Proof__verify`:
`node_size` bytes copied into a zeroed 64-byte OMEGA buffer. -/
def extendRoot (node_size : Nat) (root : List Nat) : List Nat :=
  root.take node_size ++ List.replicate (64 - node_size) 0

/-- The iterative hash chain of `Proof__calculate_omega_no_alloc` (steps
`1 … L`): returns the selected leaf indices and the hashes `Y_1 … Y_L`. -/
def omegaWalk (H : List Nat → Nat → List Nat) (challenge : List Nat)
    (getElem : Nat → Element) (memory_size : Nat) :
    Nat → List Nat → (List Nat × List (List Nat))
  | 0, _ => ([], [])
  | steps + 1, y =>
      let index := u64FromLeBytes y % memory_size
      let e := elemXorBytes (getElem index) challenge
      let yNext := H (y ++ elemToLeBytes e) 64
      let rest := omegaWalk H challenge getElem memory_size steps yNext
      (index :: rest.1, yNext :: rest.2)

/-- `Proof__calculate_omega_no_alloc`: returns `(omega, selected leaves,
path hashes Y_0 … Y_L)`. -/
def calculateOmega (H : List Nat → Nat → List Nat) (cfg : Config) (challenge : List Nat)
    (getElem : Nat → Element) (root_hash : List Nat) (memory_size : Nat) (nonce : Nat) :
    (List Nat × List Nat × List (List Nat)) :=
  let y0 := H (u64ToLeBytes nonce ++ root_hash ++ challenge) 64
  let walk := omegaWalk H challenge getElem memory_size cfg.search_length y0
  let e0 := elemXorBytes (elemOfLeBytes y0) challenge
  let omega := H (walk.2.reverse.flatten ++ elemToLeBytes e0) 64
  (omega, walk.1, y0 :: walk.2)

/-- Proof-bundle collection loop of `Proof__search`: for every selected leaf,
insert its antecedent trace (when non-empty) and trace its Merkle node. -/
def collectProofMaps (mem : Memory) (tree : MerkleTree) (memory_size : Nat) :
    List Nat → (List (Nat × List Element) × List (Nat × List Nat)) →
    (List (Nat × List Element) × List (Nat × List Nat))
  | [], maps => maps
  | leaf :: rest, (am, om) =>
      let node_index := memory_size - 1 + leaf
      let tr := mem.traceElement leaf
      let am2 := if 0 < tr.length then mput am leaf tr else am
      let om2 := tree.traceNode node_index om
      collectProofMaps mem tree memory_size rest (am2, om2)

/-- The proof bundle `Proof__search` assembles for a winning nonce. -/
def wonProof (H : List Nat → Nat → List Nat) (cfg : Config) (challenge : List Nat)
    (mem : Memory) (tree : MerkleTree) (root_hash : List Nat) (memory_size : Nat)
    (nonce : Nat) : Proof :=
  let r := calculateOmega H cfg challenge (searchGetElement mem) root_hash memory_size nonce
  let maps := collectProofMaps mem tree memory_size r.2.1 ([], [])
  { config := cfg, challenge_id := challenge, nonce := nonce,
    leaf_antecedents := maps.1, tree_opening := maps.2 }

/-- The nonce loop of `Proof__search`, with the remaining iteration count as
fuel (the C loop runs `nonce = 1 … 2 ^ 64 − 2`). -/
def searchFrom (H : List Nat → Nat → List Nat) (cfg : Config) (challenge : List Nat)
    (mem : Memory) (tree : MerkleTree) (root_hash : List Nat) (memory_size : Nat) :
    Nat → Nat → Option Proof
  | 0, _ => none
  | fuel + 1, nonce =>
      let r := calculateOmega H cfg challenge (searchGetElement mem) root_hash memory_size nonce
      if leadingZeros r.1 < cfg.difficulty_bits then
        searchFrom H cfg challenge mem tree root_hash memory_size fuel (nonce + 1)
      else
        some (wonProof H cfg challenge mem tree root_hash memory_size nonce)

/-- `Proof__search`. -/
def Proof.search (H : List Nat → Nat → List Nat) (cfg : Config) (challenge : List Nat)
    (mem : Memory) (tree : MerkleTree) : Option Proof :=
  match tree.getNode? 0 with
  | none => none
  | some root0 =>
      let root_hash := extendRoot tree.node_size root0
      let memory_size := cfg.chunk_count * cfg.chunk_size
      searchFrom H cfg challenge mem tree root_hash memory_size (two64 - 2) 1

/-- `HashMap__get_element_copy_for_verify`: a missing key reads as the zero
element. -/
def getElementCopyForVerify (pm : List (Nat × Element)) (index : Nat) : Element :=
  (mget pm index).getD elemZero

/-- Stage-1 reconstruction of one leaf in `Proof__verify`.  The expected count
comes from the position class alone (the C map stores no list length); the
`InvalidAntecedentCount` arm is syntactically present but unreachable. -/
def reconstructOne (H : List Nat → Nat → List Nat) (cfg : Config) (challenge : List Nat)
    (leaf_index : Nat) (antecedents : List Element) : Except VerificationError Element :=
  let element_index_in_chunk := leaf_index % cfg.chunk_size
  let ante_count := if element_index_in_chunk < cfg.antecedent_count then 1 else cfg.antecedent_count
  if ante_count = 1 then .ok (antecedents.getD 0 elemZero)
  else if ante_count = cfg.antecedent_count then
    .ok (compress H antecedents ante_count leaf_index challenge)
  else .error .InvalidAntecedentCount

/-- The value `reconstructOne` always succeeds with (its error arm is
unreachable: the expected count is 1 or `antecedent_count` by construction). -/
def reconElem (H : List Nat → Nat → List Nat) (cfg : Config) (challenge : List Nat)
    (leaf_index : Nat) (antecedents : List Element) : Element :=
  let ante_count :=
    if leaf_index % cfg.chunk_size < cfg.antecedent_count then 1 else cfg.antecedent_count
  if ante_count = 1 then antecedents.getD 0 elemZero
  else compress H antecedents ante_count leaf_index challenge

/-- Stage-1 loop of `Proof__verify`: builds the partial memory. -/
def buildPartialMemory (H : List Nat → Nat → List Nat) (cfg : Config) (challenge : List Nat) :
    List (Nat × List Element) → List (Nat × Element) →
    Except VerificationError (List (Nat × Element))
  | [], pm => .ok pm
  | (leaf_index, antecedents) :: rest, pm =>
      match reconstructOne H cfg challenge leaf_index antecedents with
      | .error e => .error e
      | .ok e => buildPartialMemory H cfg challenge rest (mput pm leaf_index e)

/-- Stage-2A loop of `Proof__verify`: each reconstructed leaf's hash must be
disclosed in the opening and match (`memcmp` over `node_size` bytes). -/
def checkLeafHashes (H : List Nat → Nat → List Nat) (challenge : List Nat)
    (opening : List (Nat × List Nat)) (node_size memory_size : Nat) :
    List (Nat × Element) → Option VerificationError
  | [] => none
  | (leaf_index, e) :: rest =>
      let node_index := memory_size - 1 + leaf_index
      let leaf_hash := computeLeafHash H challenge e node_size
      match mget opening node_index with
      | none => some .MissingOpeningForLeaf
      | some opened =>
          if opened.take node_size = leaf_hash.take node_size then
            checkLeafHashes H challenge opening node_size memory_size rest
          else some .LeafHashMismatch

/-- `Proof__verify`.  Stage 2B of the C code copies the opening into a working
map that nothing afterwards reads (its wrapper's `get_node` is `NULL` and the
omega computation ignores it), so only its root lookup is observable; the
tree is never ascended. -/
def Proof.verify (H : List Nat → Nat → List Nat) (NS : Config → Nat) (p : Proof) :
    VerificationError :=
  let cfg := p.config
  let challenge := p.challenge_id
  let node_size := NS cfg
  let memory_size := cfg.chunk_count * cfg.chunk_size
  match buildPartialMemory H cfg challenge p.leaf_antecedents [] with
  | .error e => e
  | .ok pm =>
    match checkLeafHashes H challenge p.tree_opening node_size memory_size pm with
    | some e => e
    | none =>
      match mget p.tree_opening 0 with
      | none => .MissingMerkleRoot
      | some root0 =>
        let root_hash := extendRoot node_size root0
        let r := calculateOmega H cfg challenge (getElementCopyForVerify pm) root_hash memory_size p.nonce
        if r.2.1.any (fun idx => (mget p.leaf_antecedents idx).isNone) then
          .UnprovenLeafInPath
        else if leadingZeros r.1 < cfg.difficulty_bits then
          .DifficultyNotMet
        else .Ok

/-! ### Concrete instances used by counterexamples and witnesses.
The hash parameter is instantiated with small executable functions; any
choice of `H` is a legitimate instantiation because the C sources treat the
vendored BLAKE3 as an opaque byte oracle. -/

/-- Constant-zero hash instance. -/
def Hc0 : List Nat → Nat → List Nat := fun _ len => List.replicate len 0

/-- Byte-sum hash instance (content-dependent, so distinct messages can give
distinct digests). -/
def Hsum : List Nat → Nat → List Nat :=
  fun msg len => List.replicate len (msg.foldl (· + ·) 0 % 256)

/-- Node-size instance: one byte per Merkle node. -/
def NS1 : Config → Nat := fun _ => 1

/-- Tiny configuration: `l = 2`, `P = 2` (so `T = 4`), `n = 2`, `d = 0`,
`L = 1`. -/
def cfg2 : Config :=
  { chunk_size := 2, chunk_count := 2, antecedent_count := 2,
    difficulty_bits := 0, search_length := 1 }

def mem2 : Memory := Memory.buildAll Hc0 cfg2 []

def tree2 : MerkleTree := MerkleTree.build Hc0 NS1 cfg2 [] mem2

/-- Tiny configuration with `T = 2 < L = 3`, forcing repeated walk indices. -/
def cfg3 : Config :=
  { chunk_size := 2, chunk_count := 1, antecedent_count := 1,
    difficulty_bits := 0, search_length := 3 }

def mem3 : Memory := Memory.buildAll Hc0 cfg3 []

def tree3 : MerkleTree := MerkleTree.build Hc0 NS1 cfg3 [] mem3

/-- Configuration with `antecedent_count = 1` (`l = 4`, `P = 1`, `d = 0`,
`L = 1`) under the byte-sum hash; the walk selects the non-seed leaf 1. -/
def cfg1x : Config :=
  { chunk_size := 4, chunk_count := 1, antecedent_count := 1,
    difficulty_bits := 0, search_length := 1 }

def mem1x : Memory := Memory.buildAll Hsum cfg1x []

def tree1x : MerkleTree := MerkleTree.build Hsum NS1 cfg1x [] mem1x

/-- Fallback proof value for `Option.getD`. -/
def dummyProof : Proof :=
  { config := cfg2, challenge_id := [], nonce := 0, leaf_antecedents := [],
    tree_opening := [] }

/-- The proof found by the search on the `cfg2` instance. -/
def foundProof2 : Proof := (Proof.search Hc0 cfg2 [] mem2 tree2).getD dummyProof

/-- `foundProof2` with one bit of the disclosed internal (non-root, non-leaf)
node 2 flipped: its one-byte hash `[0]` becomes `[1]`. -/
def tamperedProof2 : Proof :=
  { foundProof2 with tree_opening := mput foundProof2.tree_opening 2 [1] }

/-- The proof found by the search on the `cfg3` instance. -/
def foundProof3 : Proof := (Proof.search Hc0 cfg3 [] mem3 tree3).getD dummyProof

/-- The proof found by the search on the `cfg1x` instance. -/
def foundProof1x : Proof := (Proof.search Hsum cfg1x [] mem1x tree1x).getD dummyProof

/-- Hand-made proof with an over-long antecedent list: leaf 0 of `cfg3` is a
seed-class leaf (requiring exactly one disclosed element) but two elements are
listed; the tree opening is empty. -/
def wrongLenProof : Proof :=
  { config := cfg3, challenge_id := [], nonce := 1,
    leaf_antecedents := [(0, [elemZero, elemZero])], tree_opening := [] }

/-- Hand-made proof with no disclosed antecedents at all but a present root,
so the replayed walk meets indices absent from `leaf_antecedents`. -/
def underProof : Proof :=
  { config := cfg3, challenge_id := [], nonce := 1,
    leaf_antecedents := [], tree_opening := [(0, [0])] }

end Itsuku

namespace Itsuku

/-! ### Association-list map lemmas. -/

theorem mget_mput_self {α : Type} (m : List (Nat × α)) (k : Nat) (v : α) :
    mget (mput m k v) k = some v := by
  induction m with
  | nil => simp [mput, mget]
  | cons kv rest ih =>
      obtain ⟨k1, v1⟩ := kv
      by_cases h : k1 = k
      · simp [mput, h, mget]
      · simp [mput, h, mget, ih]

theorem mget_mput_ne {α : Type} (m : List (Nat × α)) (k k2 : Nat) (v : α) (h : k ≠ k2) :
    mget (mput m k v) k2 = mget m k2 := by
  induction m with
  | nil => simp [mput, mget, h]
  | cons kv rest ih =>
      obtain ⟨k1, v1⟩ := kv
      by_cases h1 : k1 = k
      · subst h1
        simp [mput, mget, h, ih]
      · simp [mput, h1, mget, ih]

theorem mget_mput_isSome {α : Type} (m : List (Nat × α)) (k k2 : Nat) (v : α)
    (h : (mget m k2).isSome) : (mget (mput m k v) k2).isSome := by
  by_cases hk : k = k2
  · subst hk
    simp [mget_mput_self]
  · rwa [mget_mput_ne m k k2 v hk]

/-! ### Claim C4: `phi_variant`. -/

/-- The source's `calculate_phi_variant_index` is the spec table expression
with a clamp (not a reduction modulo `i`). -/
theorem phi_clamp (i phi k : Nat) :
    calculate_phi_variant_index i phi k =
      if i = 0 then 0
      else if i ≤ phiTableSpec i phi k then i - 1 else phiTableSpec i phi k := by
  by_cases hi : i = 0
  · simp [calculate_phi_variant_index, hi]
  · have h12 : k % 12 < 12 := Nat.mod_lt _ (by norm_num)
    set r := k % 12 with hr
    unfold calculate_phi_variant_index phiTableSpec
    rw [← hr]
    interval_cases r <;>
      simp [hi, Nat.mul_comm]

end Itsuku

namespace Itsuku

/-- C4 counterexample: at `i = 10, φ = 25, k = 1` the source clamps the table
value 25 down to `i − 1 = 9`, while the claimed reduction modulo `i` gives
`25 mod 10 = 5`. -/
theorem c4_mod_reduction_counterexample :
    calculate_phi_variant_index 10 25 1 = 9 ∧
    phi_variant_spec 10 25 1 = 5 ∧
    calculate_phi_variant_index 10 25 1 ≠ phi_variant_spec 10 25 1 := by
  decide

/-- C4 (amended): for `i ≥ 1`, `phi_variant(i, φ, k)` equals the §4.1 table
expression chosen by `k mod 12` when that value is below `i` (where it agrees
with the claimed mod-`i` reduction) and is clamped to `i − 1` otherwise, so it
always lies in `[0, i)`; for `i = 0` it returns 0; the concrete values
`phi_variant(1024, 100, k) = {1023, 562, 896, 896, 87}` for
`k ∈ {0, 2, 3, 11, 10}` hold. -/
theorem c4_phi_variant_clamped :
    (∀ i phi k, 1 ≤ i →
        calculate_phi_variant_index i phi k < i ∧
        (phiTableSpec i phi k < i →
          calculate_phi_variant_index i phi k = phi_variant_spec i phi k) ∧
        (i ≤ phiTableSpec i phi k → calculate_phi_variant_index i phi k = i - 1)) ∧
    calculate_phi_variant_index 0 7 5 = 0 ∧
    calculate_phi_variant_index 1024 100 0 = 1023 ∧
    calculate_phi_variant_index 1024 100 2 = 562 ∧
    calculate_phi_variant_index 1024 100 3 = 896 ∧
    calculate_phi_variant_index 1024 100 11 = 896 ∧
    calculate_phi_variant_index 1024 100 10 = 87 := by
  refine ⟨?_, by decide, by decide, by decide, by decide, by decide, by decide⟩
  intro i phi k hi
  have hi0 : i ≠ 0 := by omega
  rw [phi_clamp]
  simp only [hi0, if_false, phi_variant_spec]
  refine ⟨?_, ?_, ?_⟩
  · split <;> omega
  · intro hE
    rw [if_neg (by omega), Nat.mod_eq_of_lt hE]
  · intro hE
    rw [if_pos hE]

/-- C4 witness: the amended theorem applied at `i = 10, φ = 25, k = 7`. -/
theorem c4_phi_variant_clamped_witness :
    calculate_phi_variant_index 10 25 7 < 10 ∧
    calculate_phi_variant_index 10 25 7 = phi_variant_spec 10 25 7 :=
  ⟨(c4_phi_variant_clamped.1 10 25 7 (by decide)).1,
   (c4_phi_variant_clamped.1 10 25 7 (by decide)).2.1 (by decide)⟩

end Itsuku

namespace Itsuku

/-! ### Claim C8: `argon2_index`. -/

theorem leToNat_lt_pow (l : List Nat) : leToNat l < 256 ^ l.length := by
  induction l with
  | nil => simp [leToNat]
  | cons b rest ih =>
      have hb : b % 256 < 256 := Nat.mod_lt _ (by norm_num)
      simp only [leToNat, List.length_cons, pow_succ]
      have h2 : (256 : Nat) ^ rest.length * 256 = 256 * 256 ^ rest.length := by ring
      rw [h2]
      omega

theorem u32FromLeBytes_lt (l : List Nat) : u32FromLeBytes l < 2 ^ 32 := by
  have h1 : leToNat (l.take 4) < 256 ^ (l.take 4).length := leToNat_lt_pow _
  have h2 : (l.take 4).length ≤ 4 := by
    simp [List.length_take]
  have h3 : (256 : Nat) ^ (l.take 4).length ≤ 256 ^ 4 :=
    Nat.pow_le_pow_right (by norm_num) h2
  have h4 : (256 : Nat) ^ 4 = 2 ^ 32 := by norm_num
  unfold u32FromLeBytes
  omega

/-- C8: `argon2_index(seed4, i)` computes the claimed wrapping formula, with
`s` the little-endian u32 read of the seed; in particular
`argon2_index([0x01,0,0,0], 1000) = 999`. -/
theorem c8_argon2_index :
    (∀ seed i, i < two64 →
        calculate_argon2_index seed i = argon2_spec (u32FromLeBytes seed) i) ∧
    calculate_argon2_index [1, 0, 0, 0] 1000 = 999 := by
  constructor
  · intro seed i hi
    have hs : u32FromLeBytes seed < 2 ^ 32 := u32FromLeBytes_lt seed
    simp only [calculate_argon2_index, argon2_spec]
    set s := u32FromLeBytes seed with hsdef
    have hss : s * s < two64 := by
      have h1 : s * s < 2 ^ 32 * 2 ^ 32 := Nat.mul_lt_mul_of_lt_of_lt hs hs
      unfold two64
      omega
    have hmod : (s * s) % two64 = s * s := Nat.mod_eq_of_lt hss
    have himod : i % two64 = i := Nat.mod_eq_of_lt hi
    rw [hmod, himod]
    have htwo : (2 : Nat) ^ 64 = two64 := rfl
    rw [htwo]
    set y := (i * (s * s / 2 ^ 32)) % two64 / 2 ^ 32 with hydef
    have hy : y < 2 ^ 32 := by
      have h1 : (i * (s * s / 2 ^ 32)) % two64 < two64 := by
        unfold two64
        exact Nat.mod_lt _ (by positivity)
      have h2 : two64 = 2 ^ 32 * 2 ^ 32 := by unfold two64; norm_num
      rw [hydef]
      omega
    unfold sub64 two64
    have h2 : ((2 : Int) ^ 64) = ((2 ^ 64 : Nat) : Int) := by norm_num
    rw [h2]
    omega
  · decide

/-- C8 witness: the formula applied at the concrete seed `[2,0,0,0]`,
`i = 5`. -/
theorem c8_argon2_index_witness :
    calculate_argon2_index [2, 0, 0, 0] 5 = argon2_spec (u32FromLeBytes [2, 0, 0, 0]) 5 :=
  c8_argon2_index.1 [2, 0, 0, 0] 5 (by decide)

end Itsuku

namespace Itsuku

/-! ### Claim C9: leading zeros. -/

theorem takeWhile_append_all {α : Type} (p : α → Bool) (l1 l2 : List α)
    (h : ∀ x ∈ l1, p x = true) :
    (l1 ++ l2).takeWhile p = l1 ++ l2.takeWhile p := by
  induction l1 with
  | nil => simp
  | cons a rest ih =>
      have ha : p a = true := h a (by simp)
      simp only [List.cons_append, List.takeWhile_cons, ha, if_true]
      rw [ih (fun x hx => h x (by simp [hx]))]

theorem takeWhile_append_stop {α : Type} (p : α → Bool) (l1 l2 : List α)
    (h : l1.all p = false) :
    (l1 ++ l2).takeWhile p = l1.takeWhile p := by
  induction l1 with
  | nil => simp at h
  | cons a rest ih =>
      rcases hpa : p a with hfalse | htrue
      · simp [List.takeWhile_cons, hpa]
      · have hrest : rest.all p = false := by
          simp only [List.all_cons, hpa, Bool.true_and] at h
          exact h
        simp [List.takeWhile_cons, hpa, ih hrest]

set_option maxRecDepth 4000 in
theorem clzByte_bits :
    ∀ b < 256, b ≠ 0 →
      clzByte b = ((bitsOfByte b).takeWhile (fun bit => bit = false)).length ∧
      (bitsOfByte b).all (fun bit => bit = false) = false := by
  decide

theorem bitsOfByte_zero : bitsOfByte 0 = List.replicate 8 false := by decide

theorem leadingZeros_spec (bs : List Nat) (h : ∀ b ∈ bs, b < 256) :
    leadingZeros bs = specLeadingZeroBits bs := by
  induction bs with
  | nil => rfl
  | cons b rest ih =>
      have hb : b < 256 := h b (by simp)
      have hbmod : b % 256 = b := Nat.mod_eq_of_lt hb
      have hrest : ∀ x ∈ rest, x < 256 := fun x hx => h x (by simp [hx])
      by_cases hb0 : b = 0
      · subst hb0
        simp only [leadingZeros, Nat.zero_mod, eq_self_iff_true, if_true, ih hrest]
        unfold specLeadingZeroBits
        rw [List.flatMap_cons, bitsOfByte_zero,
          takeWhile_append_all _ _ _ (by intro x hx; simp at hx; simp [hx])]
        simp only [List.length_append, List.length_replicate]
      · have hbits := clzByte_bits b hb hb0
        simp only [leadingZeros, hbmod, if_neg hb0]
        unfold specLeadingZeroBits
        rw [List.flatMap_cons, takeWhile_append_stop _ _ _ hbits.2]
        exact hbits.1

/-- C9: the leading-zeros function counts the most-significant zero bits of
the MSB-first concatenated bit string, equals `8·s` on `s` zero bytes, and
takes the four concrete values of the claim. -/
theorem c9_leading_zeros :
    (∀ bs, (∀ b ∈ bs, b < 256) → leadingZeros bs = specLeadingZeroBits bs) ∧
    (∀ s, leadingZeros (List.replicate s 0) = 8 * s) ∧
    leadingZeros [0, 0, 128, 0] = 16 ∧
    leadingZeros [0, 1, 0, 0] = 15 ∧
    leadingZeros [16, 0, 0, 0] = 3 ∧
    leadingZeros [0, 0, 0, 0] = 32 := by
  refine ⟨leadingZeros_spec, ?_, by decide, by decide, by decide, by decide⟩
  intro s
  induction s with
  | zero => rfl
  | succ k ih =>
      simp [List.replicate_succ, leadingZeros, ih]
      omega

/-- C9 witness: the leading-zero law applied at the concrete byte string
`[0x00, 0x01, 0x00, 0x00]`. -/
theorem c9_leading_zeros_witness :
    leadingZeros [0, 1, 0, 0] = specLeadingZeroBits [0, 1, 0, 0] :=
  c9_leading_zeros.1 [0, 1, 0, 0] (by decide)

end Itsuku

namespace Itsuku

/-! ### Claim C6: XOR-with-byte-string. -/

theorem byteAt_xor (x v t : Nat) :
    Nat.xor x v / 2 ^ t % 256 = Nat.xor (x / 2 ^ t % 256) (v / 2 ^ t % 256) := by
  have hxor : ∀ a b : Nat, Nat.xor a b = a ^^^ b := fun _ _ => rfl
  have h256 : (256 : Nat) = 2 ^ 8 := by norm_num
  rw [h256, hxor, hxor]
  apply Nat.eq_of_testBit_eq
  intro j
  simp only [Nat.testBit_mod_two_pow, ← Nat.shiftRight_eq_div_pow,
    Nat.testBit_shiftRight, Nat.testBit_xor]
  cases hd : decide (j < 8) <;> simp

theorem byteAt_xor_zero (x v : Nat) :
    Nat.xor x v % 256 = Nat.xor (x % 256) (v % 256) := by
  have h := byteAt_xor x v 0
  simpa using h

set_option maxHeartbeats 1000000 in
theorem lane_xor_bytes_cons (x b0 b1 b2 b3 b4 b5 b6 b7 : Nat)
    (h0 : b0 < 256) (h1 : b1 < 256) (h2 : b2 < 256) (h3 : b3 < 256)
    (h4 : b4 < 256) (h5 : b5 < 256) (h6 : b6 < 256) (h7 : b7 < 256) :
    u64ToLeBytes (Nat.xor x (leToNat [b0, b1, b2, b3, b4, b5, b6, b7]))
      = List.zipWith Nat.xor (u64ToLeBytes x) [b0, b1, b2, b3, b4, b5, b6, b7] := by
  have hvexp : leToNat [b0, b1, b2, b3, b4, b5, b6, b7]
      = b0 + 2 ^ 8 * b1 + 2 ^ 16 * b2 + 2 ^ 24 * b3 + 2 ^ 32 * b4
        + 2 ^ 40 * b5 + 2 ^ 48 * b6 + 2 ^ 56 * b7 := by
    simp only [leToNat, Nat.mod_eq_of_lt, h0, h1, h2, h3, h4, h5, h6, h7]
    ring
  generalize hgen : leToNat [b0, b1, b2, b3, b4, b5, b6, b7] = v
  rw [hgen] at hvexp
  clear hgen
  obtain ⟨hd0, hd1, hd2, hd3, hd4, hd5, hd6, hd7⟩ :
      v % 256 = b0 ∧ v / 2 ^ 8 % 256 = b1 ∧ v / 2 ^ 16 % 256 = b2 ∧
      v / 2 ^ 24 % 256 = b3 ∧ v / 2 ^ 32 % 256 = b4 ∧ v / 2 ^ 40 % 256 = b5 ∧
      v / 2 ^ 48 % 256 = b6 ∧ v / 2 ^ 56 % 256 = b7 := by omega
  simp only [u64ToLeBytes, List.zipWith_cons_cons, List.zipWith_nil_right]
  rw [byteAt_xor_zero, byteAt_xor x v 8, byteAt_xor x v 16, byteAt_xor x v 24,
    byteAt_xor x v 32, byteAt_xor x v 40, byteAt_xor x v 48, byteAt_xor x v 56]
  rw [hd0, hd1, hd2, hd3, hd4, hd5, hd6, hd7]

theorem lane_xor_bytes (x : Nat) (bs : List Nat) (hlen : bs.length = 8)
    (hb : ∀ y ∈ bs, y < 256) :
    u64ToLeBytes (Nat.xor x (leToNat bs)) = List.zipWith Nat.xor (u64ToLeBytes x) bs := by
  rcases bs with _ | ⟨b0, _ | ⟨b1, _ | ⟨b2, _ | ⟨b3, _ | ⟨b4, _ | ⟨b5, _ | ⟨b6, _ | ⟨b7, _ | ⟨b8, tail⟩⟩⟩⟩⟩⟩⟩⟩⟩ <;>
    simp only [List.length_nil, List.length_cons] at hlen
  · omega
  · omega
  · omega
  · omega
  · omega
  · omega
  · omega
  · omega
  · exact lane_xor_bytes_cons x b0 b1 b2 b3 b4 b5 b6 b7
      (hb _ (by simp)) (hb _ (by simp)) (hb _ (by simp)) (hb _ (by simp))
      (hb _ (by simp)) (hb _ (by simp)) (hb _ (by simp)) (hb _ (by simp))
  · omega

theorem xorLaneLoop_ge (bytes : List Nat) (lanes : Nat) (es : List Nat) :
    ∀ i, lanes ≤ i → xorLaneLoop bytes lanes i es = es := by
  induction es with
  | nil => intro i _; rfl
  | cons x rest ih =>
      intro i hi
      simp only [xorLaneLoop, if_neg (by omega : ¬ i < lanes)]
      rw [ih (i + 1) (by omega)]

theorem xorLaneLoop_bytes (bytes : List Nat) (lanes : Nat)
    (hb : ∀ y ∈ bytes, y < 256) (hlanes : 8 * lanes ≤ bytes.length) (es : List Nat) :
    ∀ i,
      (xorLaneLoop bytes lanes i es).flatMap u64ToLeBytes
        = List.zipWith Nat.xor ((es.flatMap u64ToLeBytes).take (8 * (lanes - i)))
            ((bytes.drop (8 * i)).take (8 * (lanes - i)))
          ++ (es.flatMap u64ToLeBytes).drop (8 * (lanes - i)) := by
  induction es with
  | nil => intro i; simp [xorLaneLoop]
  | cons x rest ih =>
      intro i
      by_cases hi : i < lanes
      · have hm : 8 * (lanes - i) = 8 + 8 * (lanes - (i + 1)) := by omega
        have hwin : 8 * i + 8 ≤ bytes.length := by omega
        have hslicelen : ((bytes.drop (8 * i)).take 8).length = 8 := by
          simp only [List.length_take, List.length_drop]
          omega
        have hsliceb : ∀ y ∈ (bytes.drop (8 * i)).take 8, y < 256 := by
          intro y hy
          exact hb y (List.mem_of_mem_drop (List.mem_of_mem_take hy))
        simp only [xorLaneLoop, if_pos hi, List.flatMap_cons]
        rw [ih (i + 1)]
        have hlane : u64ToLeBytes (Nat.xor x (u64FromLeBytes ((bytes.drop (8 * i)).take 8)))
            = List.zipWith Nat.xor (u64ToLeBytes x) ((bytes.drop (8 * i)).take 8) := by
          have htt : ((bytes.drop (8 * i)).take 8).take 8 = (bytes.drop (8 * i)).take 8 := by
            simp
          unfold u64FromLeBytes
          rw [htt]
          exact lane_xor_bytes x _ hslicelen hsliceb
        rw [hlane]
        have hxlen : (u64ToLeBytes x).length = 8 := rfl
        rw [hm]
        rw [List.take_add, List.take_add]
        have hA : (u64ToLeBytes x ++ rest.flatMap u64ToLeBytes).take 8 = u64ToLeBytes x := by
          rw [List.take_append_eq_append_take, hxlen]
          simp [hxlen]
        have hB : (u64ToLeBytes x ++ rest.flatMap u64ToLeBytes).drop 8 = rest.flatMap u64ToLeBytes := by
          rw [List.drop_append_eq_append_drop, hxlen]
          simp [hxlen]
        rw [hA, hB]
        have hW : ((bytes.drop (8 * i)).drop 8) = bytes.drop (8 * (i + 1)) := by
          rw [List.drop_drop]
          congr 1
        rw [hW]
        rw [List.zipWith_append _ _ _ _ _ (by rw [hxlen, hslicelen])]
        rw [List.append_assoc]
        congr 1
        rw [List.drop_append_eq_append_drop, hxlen]
        simp [hxlen]
      · have hi2 : lanes ≤ i := by omega
        rw [xorLaneLoop_ge bytes lanes (x :: rest) i hi2]
        have h0 : 8 * (lanes - i) = 0 := by omega
        simp [h0]

/-- C6 counterexample: with a 5-byte challenge the source XORs nothing
(`5 / 8 = 0` whole lanes), while the claim would change the first 5 bytes. -/
theorem c6_partial_lane_counterexample :
    elemXorBytes elemZero [1, 2, 3, 4, 5] = elemZero ∧
    elemXorBytesClaim elemZero [1, 2, 3, 4, 5] ≠ elemZero ∧
    elemXorBytes elemZero [1, 2, 3, 4, 5] ≠ elemXorBytesClaim elemZero [1, 2, 3, 4, 5] := by
  decide

/-- C6 (amended): the XOR-with-byte-string operation XORs `b` into the
element's little-endian byte view byte-for-byte for exactly
`8·⌊min(|b|, 64) / 8⌋` bytes (only whole 8-byte lanes; a trailing partial
lane — e.g. all of a 5-byte challenge — is ignored), leaving all remaining
bytes unchanged. -/
theorem c6_xor_bytes_whole_lanes :
    ∀ (e : Element) (b : List Nat), (∀ y ∈ b, y < 256) →
      elemToLeBytes (elemXorBytes e b)
        = List.zipWith Nat.xor ((elemToLeBytes e).take (8 * (min b.length 64 / 8)))
            (b.take (8 * (min b.length 64 / 8)))
          ++ (elemToLeBytes e).drop (8 * (min b.length 64 / 8)) := by
  intro e b hb
  have hlanes : 8 * (min b.length 64 / 8) ≤ b.length := by omega
  have h := xorLaneLoop_bytes b (min b.length 64 / 8) hb hlanes e 0
  simp only [Nat.sub_zero, Nat.mul_zero, List.drop_zero] at h
  simp only [elemXorBytes, elemToLeBytes]
  exact h

/-- C6 witness: the amended statement applied to the zero element and a
12-byte string of sevens (one whole lane XORed, four bytes ignored). -/
theorem c6_xor_bytes_whole_lanes_witness :
    elemToLeBytes (elemXorBytes elemZero (List.replicate 12 7))
      = List.zipWith Nat.xor
          ((elemToLeBytes elemZero).take (8 * (min (List.replicate 12 7).length 64 / 8)))
          ((List.replicate 12 7).take (8 * (min (List.replicate 12 7).length 64 / 8)))
        ++ (elemToLeBytes elemZero).drop (8 * (min (List.replicate 12 7).length 64 / 8)) :=
  c6_xor_bytes_whole_lanes elemZero (List.replicate 12 7) (by decide)

end Itsuku

namespace Itsuku

/-! ### General list and map helper lemmas. -/

theorem getD_take_of_lt {α : Type} (l : List α) (i n : Nat) (h : i < n) (d : α) :
    (l.take n).getD i d = l.getD i d := by
  simp [List.getD_eq_getElem?_getD, List.getElem?_take_of_lt, h]

theorem getD_append_left {α : Type} (l l2 : List α) (i : Nat) (d : α) (h : i < l.length) :
    (l ++ l2).getD i d = l.getD i d := by
  simp [List.getD_eq_getElem?_getD, List.getElem?_append_left, h]

theorem getD_append_length {α : Type} (l : List α) (x : α) (d : α) :
    (l ++ [x]).getD l.length d = x := by
  simp [List.getD_eq_getElem?_getD]

theorem getD_set_self {α : Type} (l : List α) (i : Nat) (x d : α) (h : i < l.length) :
    (l.set i x).getD i d = x := by
  simp [List.getD_eq_getElem?_getD, List.getElem?_set_self, h]

theorem getD_set_ne {α : Type} (l : List α) (i j : Nat) (x d : α) (h : i ≠ j) :
    (l.set i x).getD j d = l.getD j d := by
  simp [List.getD_eq_getElem?_getD, List.getElem?_set_ne, h]

theorem getD_range_map {α : Type} (f : Nat → α) (n c : Nat) (h : c < n) (d : α) :
    ((List.range n).map f).getD c d = f c := by
  simp [List.getD_eq_getElem?_getD, List.getElem?_map, List.getElem?_range, h]

theorem get?_eq_some_getD {α : Type} (l : List α) (i : Nat) (d : α) (h : i < l.length) :
    l.get? i = some (l.getD i d) := by
  simp [List.getD_eq_getElem?_getD, List.getElem?_eq_getElem, h]

theorem mul_add_div_self (a b m : Nat) (h : 0 < b) (hm : m < b) : (a * b + m) / b = a := by
  rw [Nat.mul_comm, Nat.mul_add_div h, Nat.div_eq_of_lt hm]
  omega

theorem mul_add_mod_self (a b m : Nat) (hm : m < b) : (a * b + m) % b = m := by
  rw [Nat.mul_comm, Nat.mul_add_mod, Nat.mod_eq_of_lt hm]

theorem div_lt_of_lt_mul' (k P l : Nat) (hk : k < P * l) : k / l < P := by
  apply Nat.div_lt_of_lt_mul
  rwa [Nat.mul_comm]

/-- All entries of an association list have the value determined by their key. -/
def AllKV {α : Type} (m : List (Nat × α)) (g : Nat → α) : Prop :=
  ∀ kv ∈ m, kv.2 = g kv.1

theorem allKV_nil {α : Type} (g : Nat → α) : AllKV [] g := by
  intro kv hkv
  simp at hkv

theorem allKV_mput {α : Type} {m : List (Nat × α)} {g : Nat → α} (h : AllKV m g) (k : Nat) :
    AllKV (mput m k (g k)) g := by
  induction m with
  | nil =>
      intro kv hkv
      simp [mput] at hkv
      simp [hkv]
  | cons kv0 rest ih =>
      intro kv hkv
      obtain ⟨k1, v1⟩ := kv0
      by_cases hk : k1 = k
      · simp [mput, hk] at hkv
        rcases hkv with h1 | h1
        · simp [h1, hk]
        · exact h kv (by simp [h1])
      · simp [mput, hk] at hkv
        rcases hkv with h1 | h1
        · exact h kv (by simp [h1])
        · exact ih (fun kv2 hkv2 => h kv2 (by simp [hkv2])) kv h1

theorem allKV_mget {α : Type} {m : List (Nat × α)} {g : Nat → α} (h : AllKV m g)
    (k : Nat) (v : α) (hget : mget m k = some v) : v = g k := by
  induction m with
  | nil => simp [mget] at hget
  | cons kv0 rest ih =>
      obtain ⟨k1, v1⟩ := kv0
      by_cases hk : k1 = k
      · simp [mget, hk] at hget
        have := h (k1, v1) (by simp)
        simp at this
        rw [← hget, this, hk]
      · simp [mget, hk] at hget
        exact ih (fun kv2 hkv2 => h kv2 (by simp [hkv2])) hget

theorem mput_length {α : Type} (m : List (Nat × α)) (k : Nat) (v : α) :
    (mput m k v).length = if (mget m k).isSome then m.length else m.length + 1 := by
  induction m with
  | nil => simp [mput, mget]
  | cons kv0 rest ih =>
      obtain ⟨k1, v1⟩ := kv0
      by_cases hk : k1 = k
      · simp [mput, mget, hk]
      · simp only [mput, mget, hk, if_false, if_neg hk, List.length_cons, ih]
        split <;> omega

theorem mget_mem {α : Type} (m : List (Nat × α)) (k : Nat) (v : α)
    (h : mget m k = some v) : (k, v) ∈ m := by
  induction m with
  | nil => simp [mget] at h
  | cons kv0 rest ih =>
      obtain ⟨k1, v1⟩ := kv0
      by_cases hk : k1 = k
      · simp [mget, hk] at h
        simp [← h, hk]
      · simp [mget, hk] at h
        simp [ih h]

end Itsuku

namespace Itsuku

/-! ### Memory-build characterization lemmas. -/

theorem buildChunkN_length (H : List Nat → Nat → List Nat) (cfg : Config)
    (challenge : List Nat) (c : Nat) : ∀ k, (buildChunkN H cfg challenge c k).length = k := by
  intro k
  induction k with
  | zero => rfl
  | succ k ih => simp [buildChunkN, ih]

theorem buildChunkN_take (H : List Nat → Nat → List Nat) (cfg : Config)
    (challenge : List Nat) (c : Nat) :
    ∀ k j, j ≤ k →
      (buildChunkN H cfg challenge c k).take j = buildChunkN H cfg challenge c j := by
  intro k
  induction k with
  | zero =>
      intro j hj
      have : j = 0 := by omega
      simp [this, buildChunkN]
  | succ k ih =>
      intro j hj
      by_cases hje : j = k + 1
      · subst hje
        apply List.take_of_length_le
        rw [buildChunkN_length]
      · have hjk : j ≤ k := by omega
        show (buildChunkN H cfg challenge c k ++ [_]).take j = _
        rw [List.take_append_of_le_length (by rw [buildChunkN_length]; omega)]
        exact ih j hjk

theorem buildChunkN_getD (H : List Nat → Nat → List Nat) (cfg : Config)
    (challenge : List Nat) (c : Nat) :
    ∀ k m, m < k →
      (buildChunkN H cfg challenge c k).getD m elemZero
        = chunkStep H cfg challenge c (buildChunkN H cfg challenge c m) := by
  intro k
  induction k with
  | zero => intro m hm; omega
  | succ k ih =>
      intro m hm
      by_cases hme : m = k
      · subst hme
        show (buildChunkN H cfg challenge c m ++ [_]).getD m elemZero = _
        have hl := buildChunkN_length H cfg challenge c m
        have happ := getD_append_length (buildChunkN H cfg challenge c m)
          (chunkStep H cfg challenge c (buildChunkN H cfg challenge c m)) elemZero
        rw [hl] at happ
        exact happ
      · have hmk : m < k := by omega
        show (buildChunkN H cfg challenge c k ++ [_]).getD m elemZero = _
        rw [getD_append_left _ _ _ _ (by rw [buildChunkN_length]; omega)]
        exact ih m hmk

/-- Values at indices below `m` are stable between the `m`-step prefix and any
longer prefix of the chunk. -/
theorem buildChunkN_getD_stable (H : List Nat → Nat → List Nat) (cfg : Config)
    (challenge : List Nat) (c : Nat) (a m k : Nat) (ha : a < m) (hm : m ≤ k) :
    (buildChunkN H cfg challenge c m).getD a elemZero
      = (buildChunkN H cfg challenge c k).getD a elemZero := by
  rw [← buildChunkN_take H cfg challenge c k m hm, getD_take_of_lt _ _ _ ha]

theorem phi_variant_lt (i phi k : Nat) (hi : 1 ≤ i) :
    calculate_phi_variant_index i phi k < i := by
  rw [phi_clamp]
  have hi0 : i ≠ 0 := by omega
  simp only [hi0, if_false]
  split <;> omega

theorem getAntecedentIndices_lt (cfg : Config) (chunk : List Element) (m : Nat)
    (hm : 1 ≤ m) :
    ∀ a ∈ getAntecedentIndices cfg chunk m, a < m := by
  intro a ha
  unfold getAntecedentIndices at ha
  by_cases hseed : m < cfg.antecedent_count
  · simp [hseed] at ha
  · simp only [hseed, if_false, List.mem_map] at ha
    obtain ⟨variant, _, hva⟩ := ha
    have hlt := phi_variant_lt m
      (calculate_argon2_index ((elemToLeBytes (chunk.getD (m - 1) elemZero)).take 4) m)
      variant hm
    have hmod := Nat.mod_le
      (calculate_phi_variant_index m
        (calculate_argon2_index ((elemToLeBytes (chunk.getD (m - 1) elemZero)).take 4) m)
        variant)
      cfg.chunk_size
    omega

/-- The antecedent-index computation reads the chunk only at `m - 1`. -/
theorem getAntecedentIndices_congr (cfg : Config) (chunk1 chunk2 : List Element) (m : Nat)
    (h : chunk1.getD (m - 1) elemZero = chunk2.getD (m - 1) elemZero) :
    getAntecedentIndices cfg chunk1 m = getAntecedentIndices cfg chunk2 m := by
  unfold getAntecedentIndices
  rw [h]

end Itsuku

namespace Itsuku

/-- A compressed element of a built chunk is the compression of the
antecedents selected from the same (final) chunk. -/
theorem buildChunk_compress (H : List Nat → Nat → List Nat) (cfg : Config)
    (challenge : List Nat) (c m : Nat)
    (hn : cfg.antecedent_count ≤ m) (hm : m < cfg.chunk_size)
    (h1 : 1 ≤ cfg.antecedent_count) :
    (buildChunk H cfg challenge c).getD m elemZero
      = compress H
          ((getAntecedentIndices cfg (buildChunk H cfg challenge c) m).map
            (fun a => (buildChunk H cfg challenge c).getD a elemZero))
          cfg.antecedent_count (c * cfg.chunk_size + m) challenge := by
  have hm1 : 1 ≤ m := le_trans h1 hn
  unfold buildChunk
  rw [buildChunkN_getD H cfg challenge c cfg.chunk_size m hm]
  unfold chunkStep
  rw [buildChunkN_length]
  rw [if_neg (by omega)]
  have hstab : (buildChunkN H cfg challenge c m).getD (m - 1) elemZero
      = (buildChunkN H cfg challenge c cfg.chunk_size).getD (m - 1) elemZero :=
    buildChunkN_getD_stable H cfg challenge c (m - 1) m cfg.chunk_size (by omega) (by omega)
  have hidx : getAntecedentIndices cfg (buildChunkN H cfg challenge c m) m
      = getAntecedentIndices cfg (buildChunkN H cfg challenge c cfg.chunk_size) m :=
    getAntecedentIndices_congr cfg _ _ m hstab
  rw [hidx]
  show compress H
      ((getAntecedentIndices cfg (buildChunkN H cfg challenge c cfg.chunk_size) m).map
        (fun a => (buildChunkN H cfg challenge c m).getD a elemZero))
      cfg.antecedent_count (c * cfg.chunk_size + m) challenge = _
  congr 1
  apply List.map_congr_left
  intro a ha
  have halt : a < m :=
    getAntecedentIndices_lt cfg (buildChunkN H cfg challenge c cfg.chunk_size) m hm1 a ha
  exact buildChunkN_getD_stable H cfg challenge c a m cfg.chunk_size halt (by omega)

/-- Reading built memory at `c·l + m` yields the built chunk's element `m`. -/
theorem memGet_chunk (H : List Nat → Nat → List Nat) (cfg : Config) (challenge : List Nat)
    (c m : Nat) (hc : c < cfg.chunk_count) (hm : m < cfg.chunk_size) :
    searchGetElement (Memory.buildAll H cfg challenge) (c * cfg.chunk_size + m)
      = (buildChunk H cfg challenge c).getD m elemZero := by
  unfold searchGetElement Memory.get? Memory.buildAll
  simp only
  rw [mul_add_div_self c cfg.chunk_size m (by omega) hm, mul_add_mod_self c cfg.chunk_size m hm]
  rw [if_neg (by omega)]
  rw [getD_range_map _ _ _ hc]
  rfl

/-- C7: after the full memory build, every compressed element `X[c·l + m]`
(`n ≤ m < l`) is the compression Φ of exactly `n` antecedents
`A_k = X[c·l + a_k]`, `a_k = phi_variant(m, argon2_index(seed4, m), k) mod l`
with `seed4` the first four bytes of `X[c·l + m − 1]`, and every `a_k` lies in
the same chunk strictly below `m`. -/
theorem c7_memory_recurrence (H : List Nat → Nat → List Nat) (cfg : Config)
    (challenge : List Nat) (c m : Nat)
    (hc : c < cfg.chunk_count) (hn : cfg.antecedent_count ≤ m) (hm : m < cfg.chunk_size)
    (h1 : 1 ≤ cfg.antecedent_count) :
    searchGetElement (Memory.buildAll H cfg challenge) (c * cfg.chunk_size + m)
      = compress H
          ((List.range cfg.antecedent_count).map (fun k =>
            searchGetElement (Memory.buildAll H cfg challenge)
              (c * cfg.chunk_size +
                calculate_phi_variant_index m
                  (calculate_argon2_index
                    ((elemToLeBytes
                      (searchGetElement (Memory.buildAll H cfg challenge)
                        (c * cfg.chunk_size + (m - 1)))).take 4) m)
                  k % cfg.chunk_size)))
          cfg.antecedent_count (c * cfg.chunk_size + m) challenge
    ∧ (∀ k,
        calculate_phi_variant_index m
          (calculate_argon2_index
            ((elemToLeBytes
              (searchGetElement (Memory.buildAll H cfg challenge)
                (c * cfg.chunk_size + (m - 1)))).take 4) m)
          k % cfg.chunk_size < m) := by
  have hm1 : 1 ≤ m := le_trans h1 hn
  have hprev : searchGetElement (Memory.buildAll H cfg challenge) (c * cfg.chunk_size + (m - 1))
      = (buildChunk H cfg challenge c).getD (m - 1) elemZero :=
    memGet_chunk H cfg challenge c (m - 1) hc (by omega)
  have hphi_lt : ∀ k,
      calculate_phi_variant_index m
        (calculate_argon2_index
          ((elemToLeBytes ((buildChunk H cfg challenge c).getD (m - 1) elemZero)).take 4) m)
        k % cfg.chunk_size < m := by
    intro k
    have hlt := phi_variant_lt m
      (calculate_argon2_index
        ((elemToLeBytes ((buildChunk H cfg challenge c).getD (m - 1) elemZero)).take 4) m)
      k hm1
    have hmod := Nat.mod_le
      (calculate_phi_variant_index m
        (calculate_argon2_index
          ((elemToLeBytes ((buildChunk H cfg challenge c).getD (m - 1) elemZero)).take 4) m)
        k)
      cfg.chunk_size
    omega
  constructor
  · rw [memGet_chunk H cfg challenge c m hc hm]
    rw [buildChunk_compress H cfg challenge c m hn hm h1]
    have hidx : getAntecedentIndices cfg (buildChunk H cfg challenge c) m
        = (List.range cfg.antecedent_count).map (fun k =>
            calculate_phi_variant_index m
              (calculate_argon2_index
                ((elemToLeBytes ((buildChunk H cfg challenge c).getD (m - 1) elemZero)).take 4) m)
              k % cfg.chunk_size) := by
      unfold getAntecedentIndices
      rw [if_neg (by omega)]
    rw [hidx, List.map_map]
    congr 1
    rw [hprev]
    apply List.map_congr_left
    intro k _
    show (buildChunk H cfg challenge c).getD _ elemZero = _
    rw [memGet_chunk H cfg challenge c _ hc (Nat.mod_lt _ (by omega))]
  · rw [hprev]
    exact hphi_lt

/-- C7 witness: the recurrence applied at the `cfg1x` instance, chunk 0,
offset 2. -/
theorem c7_memory_recurrence_witness :
    searchGetElement (Memory.buildAll Hsum cfg1x []) (0 * cfg1x.chunk_size + 2)
      = compress Hsum
          ((List.range cfg1x.antecedent_count).map (fun k =>
            searchGetElement (Memory.buildAll Hsum cfg1x [])
              (0 * cfg1x.chunk_size +
                calculate_phi_variant_index 2
                  (calculate_argon2_index
                    ((elemToLeBytes
                      (searchGetElement (Memory.buildAll Hsum cfg1x [])
                        (0 * cfg1x.chunk_size + (2 - 1)))).take 4) 2)
                  k % cfg1x.chunk_size)))
          cfg1x.antecedent_count (0 * cfg1x.chunk_size + 2) []
    ∧ (∀ k,
        calculate_phi_variant_index 2
          (calculate_argon2_index
            ((elemToLeBytes
              (searchGetElement (Memory.buildAll Hsum cfg1x [])
                (0 * cfg1x.chunk_size + (2 - 1)))).take 4) 2)
          k % cfg1x.chunk_size < 2) :=
  c7_memory_recurrence Hsum cfg1x [] 0 2 (by decide) (by decide) (by decide) (by decide)

end Itsuku

namespace Itsuku

/-! ### Verification-structure lemmas. -/

/-- Stage-1 reconstruction never fails: the expected count is `1` or
`antecedent_count` by construction, so the error arm is dead. -/
theorem reconstructOne_ok (H : List Nat → Nat → List Nat) (cfg : Config)
    (challenge : List Nat) (leaf_index : Nat) (antecedents : List Element) :
    reconstructOne H cfg challenge leaf_index antecedents
      = .ok (reconElem H cfg challenge leaf_index antecedents) := by
  unfold reconstructOne reconElem
  by_cases h : leaf_index % cfg.chunk_size < cfg.antecedent_count
  · simp [h]
  · simp only [h, if_false]
    by_cases h1 : cfg.antecedent_count = 1
    · simp [h1]
    · simp [h1]

theorem buildPartialMemory_ok (H : List Nat → Nat → List Nat) (cfg : Config)
    (challenge : List Nat) :
    ∀ (l : List (Nat × List Element)) (pm0 : List (Nat × Element)),
      buildPartialMemory H cfg challenge l pm0
        = .ok (l.foldl
            (fun pm kv => mput pm kv.1 (reconElem H cfg challenge kv.1 kv.2)) pm0) := by
  intro l
  induction l with
  | nil => intro pm0; rfl
  | cons kv rest ih =>
      intro pm0
      obtain ⟨k, v⟩ := kv
      show (match reconstructOne H cfg challenge k v with
            | Except.error e => Except.error e
            | Except.ok e => buildPartialMemory H cfg challenge rest (mput pm0 k e)) = _
      rw [reconstructOne_ok]
      exact ih _

theorem checkLeafHashes_some (H : List Nat → Nat → List Nat) (challenge : List Nat)
    (opening : List (Nat × List Nat)) (node_size memory_size : Nat) :
    ∀ (pm : List (Nat × Element)) (e : VerificationError),
      checkLeafHashes H challenge opening node_size memory_size pm = some e →
      e = .MissingOpeningForLeaf ∨ e = .LeafHashMismatch := by
  intro pm
  induction pm with
  | nil =>
      intro e h
      simp [checkLeafHashes] at h
  | cons kv rest ih =>
      intro e h
      obtain ⟨k, v⟩ := kv
      unfold checkLeafHashes at h
      rcases hg : mget opening (memory_size - 1 + k) with _ | opened
      · simp only [hg, Option.some.injEq] at h
        left
        exact h.symm
      · simp only [hg] at h
        by_cases heq : opened.take node_size = (computeLeafHash H challenge v node_size).take node_size
        · rw [if_pos heq] at h
          exact ih e h
        · rw [if_neg heq] at h
          simp only [Option.some.injEq] at h
          right
          exact h.symm

end Itsuku

namespace Itsuku

/-- `Proof__verify` can only return one of six kinds: the tree is never
ascended (`IntermediateHashMismatch`, `MissingChildNode` are unreachable) and
the antecedent-count branch is dead (`InvalidAntecedentCount` unreachable). -/
theorem verify_cases (H : List Nat → Nat → List Nat) (NS : Config → Nat) (p : Proof) :
    Proof.verify H NS p = .Ok ∨
    Proof.verify H NS p = .MissingOpeningForLeaf ∨
    Proof.verify H NS p = .LeafHashMismatch ∨
    Proof.verify H NS p = .MissingMerkleRoot ∨
    Proof.verify H NS p = .UnprovenLeafInPath ∨
    Proof.verify H NS p = .DifficultyNotMet := by
  simp only [Proof.verify]
  rw [buildPartialMemory_ok]
  split
  · rename_i e heq
    simp at heq
  · rename_i pm heq
    split
    · rename_i e2 heq2
      rcases checkLeafHashes_some H p.challenge_id p.tree_opening (NS p.config)
          (p.config.chunk_count * p.config.chunk_size) _ e2 heq2 with h | h <;> simp [h]
    · split
      · simp
      · split
        · simp
        · split
          · simp
          · simp

end Itsuku

namespace Itsuku

/-- Stage-1 never fails, so `Proof__verify` is determined by the later
stages. -/
theorem verify_eq_stage2 (H : List Nat → Nat → List Nat) (NS : Config → Nat) (p : Proof)
    (pm : List (Nat × Element))
    (h : buildPartialMemory H p.config p.challenge_id p.leaf_antecedents [] = .ok pm) :
    Proof.verify H NS p =
      (match checkLeafHashes H p.challenge_id p.tree_opening (NS p.config)
          (p.config.chunk_count * p.config.chunk_size) pm with
       | some e => e
       | none =>
         match mget p.tree_opening 0 with
         | none => .MissingMerkleRoot
         | some root0 =>
           let root_hash := extendRoot (NS p.config) root0
           let r := calculateOmega H p.config p.challenge_id (getElementCopyForVerify pm)
             root_hash (p.config.chunk_count * p.config.chunk_size) p.nonce
           if r.2.1.any (fun idx => (mget p.leaf_antecedents idx).isNone) then
             .UnprovenLeafInPath
           else if leadingZeros r.1 < p.config.difficulty_bits then .DifficultyNotMet
           else .Ok) := by
  simp only [Proof.verify, h]

/-- C5 counterexample: `wrongLenProof` lists two elements for the seed-class
leaf 0 (which requires exactly one), yet verification reports
`MissingOpeningForLeaf`, not `InvalidAntecedentCount`. -/
theorem c5_wrong_length_counterexample :
    (mget wrongLenProof.leaf_antecedents 0).map List.length = some 2 ∧
    wrongLenProof.config.antecedent_count = 1 ∧
    (0 : Nat) % wrongLenProof.config.chunk_size < wrongLenProof.config.antecedent_count ∧
    Proof.verify Hc0 NS1 wrongLenProof = .MissingOpeningForLeaf ∧
    Proof.verify Hc0 NS1 wrongLenProof ≠ .InvalidAntecedentCount := by
  decide

/-- C5 (amended): `proof_verify` never returns `InvalidAntecedentCount`: the
expected count is derived from the position class alone (the C map stores no
list length), stage-1 reconstruction always succeeds, and wrong-length lists
go undetected. -/
theorem c5_invalid_antecedent_count_unreachable :
    (∀ (H : List Nat → Nat → List Nat) (NS : Config → Nat) (p : Proof),
        Proof.verify H NS p ≠ .InvalidAntecedentCount) ∧
    (∀ (H : List Nat → Nat → List Nat) (cfg : Config) (challenge : List Nat)
        (leaf_index : Nat) (antecedents : List Element),
        ∃ e, reconstructOne H cfg challenge leaf_index antecedents = .ok e) := by
  constructor
  · intro H NS p hcon
    rcases verify_cases H NS p with h | h | h | h | h | h <;> rw [hcon] at h <;> simp at h
  · intro H cfg challenge leaf_index antecedents
    exact ⟨_, reconstructOne_ok H cfg challenge leaf_index antecedents⟩

/-- Inserting an opening entry at a node index that no checked leaf uses does
not change the stage-2A scan. -/
theorem checkLeafHashes_mput_ne (H : List Nat → Nat → List Nat) (challenge : List Nat)
    (opening : List (Nat × List Nat)) (node_size memory_size j : Nat) (v : List Nat) :
    ∀ (pm : List (Nat × Element)), (∀ kv ∈ pm, memory_size - 1 + kv.1 ≠ j) →
      checkLeafHashes H challenge (mput opening j v) node_size memory_size pm
        = checkLeafHashes H challenge opening node_size memory_size pm := by
  intro pm
  induction pm with
  | nil => intro; rfl
  | cons kv rest ih =>
      intro hpm
      obtain ⟨k, v2⟩ := kv
      have hne : j ≠ memory_size - 1 + k := fun heq => hpm (k, v2) (by simp) (by omega)
      show (match mget (mput opening j v) (memory_size - 1 + k) with
            | none => some VerificationError.MissingOpeningForLeaf
            | some opened =>
                if opened.take node_size
                    = (computeLeafHash H challenge v2 node_size).take node_size then
                  checkLeafHashes H challenge (mput opening j v) node_size memory_size rest
                else some VerificationError.LeafHashMismatch) = _
      rw [mget_mput_ne opening j (memory_size - 1 + k) v hne]
      rw [ih (fun kv2 hkv2 => hpm kv2 (by simp [hkv2]))]
      rfl

/-- C2 counterexample: `foundProof2` is produced by the search and verifies
Ok; flipping bit 0 of the disclosed hash of node 2 — an internal node that is
neither the root (index 0) nor a leaf (indices ≥ T − 1 = 3) — still verifies
Ok, because the verifier never recomputes internal hashes. -/
theorem c2_internal_node_tamper_counterexample :
    Proof.search Hc0 cfg2 [] mem2 tree2 = some foundProof2 ∧
    Proof.verify Hc0 NS1 foundProof2 = .Ok ∧
    mget foundProof2.tree_opening 2 = some [0] ∧
    tamperedProof2
      = { foundProof2 with tree_opening := mput foundProof2.tree_opening 2 [1] } ∧
    (2 : Nat) ≠ 0 ∧ 2 < cfg2.chunk_count * cfg2.chunk_size - 1 ∧
    Proof.verify Hc0 NS1 tamperedProof2 = .Ok := by
  decide

/-- C2 (amended): `proof_verify` never ascends the tree: it never returns
`IntermediateHashMismatch`, and replacing the `tree_opening` entry at any
node index that is neither the root nor the node of a reconstructed leaf
leaves the verification result unchanged. -/
theorem c2_no_intermediate_hash_check :
    (∀ (H : List Nat → Nat → List Nat) (NS : Config → Nat) (p : Proof),
        Proof.verify H NS p ≠ .IntermediateHashMismatch) ∧
    (∀ (H : List Nat → Nat → List Nat) (NS : Config → Nat) (p : Proof)
        (pm : List (Nat × Element)) (j : Nat) (v : List Nat),
        buildPartialMemory H p.config p.challenge_id p.leaf_antecedents [] = .ok pm →
        j ≠ 0 →
        (∀ kv ∈ pm, p.config.chunk_count * p.config.chunk_size - 1 + kv.1 ≠ j) →
        Proof.verify H NS { p with tree_opening := mput p.tree_opening j v }
          = Proof.verify H NS p) := by
  constructor
  · intro H NS p hcon
    rcases verify_cases H NS p with h | h | h | h | h | h <;> rw [hcon] at h <;> simp at h
  · intro H NS p pm j v h1 hj hpm
    have h2 : buildPartialMemory H p.config p.challenge_id p.leaf_antecedents [] = .ok pm := h1
    rw [verify_eq_stage2 H NS { p with tree_opening := mput p.tree_opening j v } pm h2,
      verify_eq_stage2 H NS p pm h1]
    simp only
    rw [checkLeafHashes_mput_ne H p.challenge_id p.tree_opening (NS p.config)
      (p.config.chunk_count * p.config.chunk_size) j v pm hpm]
    rw [mget_mput_ne p.tree_opening j 0 v (by omega)]

end Itsuku

namespace Itsuku

/-- C2 witness: the amended theorem applied to the concrete tampered proof
(node 2 replaced), whose verification result is unchanged. -/
theorem c2_no_intermediate_hash_check_witness :
    Proof.verify Hc0 NS1 tamperedProof2 = Proof.verify Hc0 NS1 foundProof2 :=
  c2_no_intermediate_hash_check.2 Hc0 NS1 foundProof2 [(0, elemZero)] 2 [1]
    (by rfl) (by decide) (by decide)

end Itsuku

namespace Itsuku

theorem mget_mput_isSome_eq {α : Type} (m : List (Nat × α)) (a k : Nat) (v : α) :
    (mget (mput m a v) k).isSome = (decide (a = k) || (mget m k).isSome) := by
  by_cases h : a = k
  · subst h
    simp [mget_mput_self]
  · rw [mget_mput_ne m a k v h]
    simp [h]

theorem mget_foldl_mput_isSome {α β : Type} (f : Nat → α → β) :
    ∀ (l : List (Nat × α)) (pm0 : List (Nat × β)) (k : Nat),
      (mget (l.foldl (fun pm kv => mput pm kv.1 (f kv.1 kv.2)) pm0) k).isSome
        = ((mget pm0 k).isSome || l.any (fun kv => kv.1 = k)) := by
  intro l
  induction l with
  | nil => intro pm0 k; simp
  | cons kv rest ih =>
      intro pm0 k
      show (mget (rest.foldl _ (mput pm0 kv.1 (f kv.1 kv.2))) k).isSome = _
      rw [ih (mput pm0 kv.1 (f kv.1 kv.2)) k, mget_mput_isSome_eq]
      simp [List.any_cons, Bool.or_assoc, Bool.or_comm, Bool.or_left_comm]

/-- C10: a replayed walk index with no reconstructed element reads as the
all-zero element (the replay is total); the partial memory's key set is
exactly `leaf_antecedents`' key set; and when the earlier stages pass but the
replay selects an index that is not a key of `leaf_antecedents`, verification
returns `UnprovenLeafInPath`. -/
theorem c10_unproven_leaf_on_missing_index :
    (∀ (pm : List (Nat × Element)) (idx : Nat),
        mget pm idx = none → getElementCopyForVerify pm idx = elemZero) ∧
    (∀ (H : List Nat → Nat → List Nat) (cfg : Config) (challenge : List Nat)
        (l : List (Nat × List Element)) (pm : List (Nat × Element)),
        buildPartialMemory H cfg challenge l [] = .ok pm →
        ∀ k, (mget pm k).isSome = l.any (fun kv => kv.1 = k)) ∧
    (∀ (H : List Nat → Nat → List Nat) (NS : Config → Nat) (p : Proof)
        (pm : List (Nat × Element)) (root0 : List Nat),
        buildPartialMemory H p.config p.challenge_id p.leaf_antecedents [] = .ok pm →
        checkLeafHashes H p.challenge_id p.tree_opening (NS p.config)
          (p.config.chunk_count * p.config.chunk_size) pm = none →
        mget p.tree_opening 0 = some root0 →
        ((calculateOmega H p.config p.challenge_id (getElementCopyForVerify pm)
            (extendRoot (NS p.config) root0)
            (p.config.chunk_count * p.config.chunk_size) p.nonce).2.1.any
          (fun idx => (mget p.leaf_antecedents idx).isNone)) = true →
        Proof.verify H NS p = .UnprovenLeafInPath) := by
  refine ⟨?_, ?_, ?_⟩
  · intro pm idx h
    simp [getElementCopyForVerify, h]
  · intro H cfg challenge l pm h k
    have hok := buildPartialMemory_ok H cfg challenge l []
    rw [h] at hok
    have hpm : pm = l.foldl
        (fun pm kv => mput pm kv.1 (reconElem H cfg challenge kv.1 kv.2)) [] := by
      exact (Except.ok.injEq _ _).mp hok
    rw [hpm, mget_foldl_mput_isSome]
    simp [mget]
  · intro H NS p pm root0 h1 h2 h3 h4
    rw [verify_eq_stage2 H NS p pm h1]
    simp only [h2, h3]
    rw [if_pos h4]

/-- C10 witness: `underProof` (no disclosed antecedents, root present) is
rejected with `UnprovenLeafInPath`. -/
theorem c10_unproven_leaf_on_missing_index_witness :
    Proof.verify Hc0 NS1 underProof = .UnprovenLeafInPath :=
  c10_unproven_leaf_on_missing_index.2.2 Hc0 NS1 underProof [] [0]
    (by rfl) (by rfl) (by rfl) (by decide)

end Itsuku

namespace Itsuku

/-! ### Proof-collection lemmas (search side). -/

theorem collect_fst (mem : Memory) (tree : MerkleTree) (memory_size : Nat) :
    ∀ (sel : List Nat) (am : List (Nat × List Element)) (om : List (Nat × List Nat)),
      (collectProofMaps mem tree memory_size sel (am, om)).1
        = sel.foldl
            (fun a k =>
              if 0 < (mem.traceElement k).length then mput a k (mem.traceElement k) else a)
            am := by
  intro sel
  induction sel with
  | nil => intro am om; rfl
  | cons k rest ih =>
      intro am om
      show (collectProofMaps mem tree memory_size rest
          ((if 0 < (mem.traceElement k).length then mput am k (mem.traceElement k) else am),
            tree.traceNode (memory_size - 1 + k) om)).1 = _
      rw [List.foldl_cons]
      by_cases h : 0 < (mem.traceElement k).length
      · rw [if_pos h]
        exact ih _ _
      · rw [if_neg h]
        exact ih _ _

theorem collect_snd (mem : Memory) (tree : MerkleTree) (memory_size : Nat) :
    ∀ (sel : List Nat) (am : List (Nat × List Element)) (om : List (Nat × List Nat)),
      (collectProofMaps mem tree memory_size sel (am, om)).2
        = sel.foldl (fun o k => tree.traceNode (memory_size - 1 + k) o) om := by
  intro sel
  induction sel with
  | nil => intro am om; rfl
  | cons k rest ih =>
      intro am om
      show (collectProofMaps mem tree memory_size rest
          ((if 0 < (mem.traceElement k).length then mput am k (mem.traceElement k) else am),
            tree.traceNode (memory_size - 1 + k) om)).2 = _
      rw [List.foldl_cons]
      exact ih _ _

theorem traceElement_length_pos (mem : Memory) (k : Nat)
    (hk : k < mem.config.chunk_count * mem.config.chunk_size)
    (hl : 0 < mem.config.chunk_size) (hn : 1 ≤ mem.config.antecedent_count) :
    0 < (mem.traceElement k).length := by
  unfold Memory.traceElement
  have hc : k / mem.config.chunk_size < mem.config.chunk_count :=
    div_lt_of_lt_mul' k _ _ hk
  rw [if_neg (by omega)]
  by_cases hseed : k % mem.config.chunk_size < mem.config.antecedent_count
  · simp [hseed]
  · simp only [hseed, if_false, List.length_map]
    unfold getAntecedentIndices
    rw [if_neg (by omega)]
    simp
    omega

theorem foldl_mput_keys_isSome {β : Type} (g : Nat → β) :
    ∀ (ks : List Nat) (m0 : List (Nat × β)) (k : Nat),
      (mget (ks.foldl (fun m x => mput m x (g x)) m0) k).isSome
        = ((mget m0 k).isSome || ks.any (fun x => x = k)) := by
  intro ks
  induction ks with
  | nil => intro m0 k; simp
  | cons x rest ih =>
      intro m0 k
      show (mget (rest.foldl _ (mput m0 x (g x))) k).isSome = _
      rw [ih (mput m0 x (g x)) k, mget_mput_isSome_eq]
      simp [List.any_cons, Bool.or_assoc, Bool.or_comm, Bool.or_left_comm]

theorem foldl_mput_keys_allKV {β : Type} (g : Nat → β) :
    ∀ (ks : List Nat) (m0 : List (Nat × β)), AllKV m0 g →
      AllKV (ks.foldl (fun m x => mput m x (g x)) m0) g := by
  intro ks
  induction ks with
  | nil => intro m0 h; exact h
  | cons x rest ih =>
      intro m0 h
      exact ih _ (allKV_mput h x)

/-! ### Trace-node lemmas. -/

theorem insertNodeCopy_allKV (t : MerkleTree) (m : List (Nat × List Nat)) (idx : Nat)
    (h : AllKV m (fun j => t.nodes.getD j [])) :
    AllKV (insertNodeCopy t m idx) (fun j => t.nodes.getD j []) := by
  unfold insertNodeCopy MerkleTree.getNode?
  rcases hg : t.nodes.get? idx with _ | nd
  · exact h
  · have hlt : idx < t.nodes.length := by
      by_contra hge
      rw [List.get?_eq_none.mpr (by omega)] at hg
      simp at hg
    rw [get?_eq_some_getD t.nodes idx [] hlt] at hg
    have hnd : nd = t.nodes.getD idx [] := (Option.some.inj hg).symm
    show AllKV (mput m idx nd) _
    rw [hnd]
    exact allKV_mput h idx

theorem insertNodeCopy_isSome (t : MerkleTree) (m : List (Nat × List Nat)) (idx k : Nat)
    (h : (mget m k).isSome) : (mget (insertNodeCopy t m idx) k).isSome := by
  unfold insertNodeCopy MerkleTree.getNode?
  rcases t.nodes.get? idx with _ | nd
  · exact h
  · exact mget_mput_isSome m idx k nd h

theorem insertNodeCopy_isSome_self (t : MerkleTree) (m : List (Nat × List Nat)) (idx : Nat)
    (hlt : idx < t.nodes.length) : (mget (insertNodeCopy t m idx) idx).isSome := by
  unfold insertNodeCopy MerkleTree.getNode?
  rw [get?_eq_some_getD t.nodes idx [] hlt]
  simp [mget_mput_self]

theorem traceNodeAux_allKV (t : MerkleTree) :
    ∀ (fuel index : Nat) (m : List (Nat × List Nat)),
      AllKV m (fun j => t.nodes.getD j []) →
      AllKV (traceNodeAux t fuel index m) (fun j => t.nodes.getD j []) := by
  intro fuel
  induction fuel with
  | zero => intro index m h; exact h
  | succ fuel ih =>
      intro index m h
      show AllKV (if t.nodes.length ≤ index then m else _) _
      by_cases hb : t.nodes.length ≤ index
      · rwa [if_pos hb]
      · rw [if_neg hb]
        by_cases h0 : index = 0
        · simp only [h0, if_pos rfl]
          exact insertNodeCopy_allKV t m 0 h
        · simp only [if_neg h0]
          exact ih _ _ (insertNodeCopy_allKV t _ _ (insertNodeCopy_allKV t m index h))

theorem traceNodeAux_isSome (t : MerkleTree) :
    ∀ (fuel index : Nat) (m : List (Nat × List Nat)) (k : Nat),
      (mget m k).isSome → (mget (traceNodeAux t fuel index m) k).isSome := by
  intro fuel
  induction fuel with
  | zero => intro index m k h; exact h
  | succ fuel ih =>
      intro index m k h
      show (mget (if t.nodes.length ≤ index then m else _) k).isSome
      by_cases hb : t.nodes.length ≤ index
      · rwa [if_pos hb]
      · rw [if_neg hb]
        by_cases h0 : index = 0
        · simp only [h0, if_pos rfl]
          exact insertNodeCopy_isSome t m 0 k h
        · simp only [if_neg h0]
          exact ih _ _ _ (insertNodeCopy_isSome t _ _ _ (insertNodeCopy_isSome t m index k h))

theorem traceNodeAux_isSome_self (t : MerkleTree) (fuel index : Nat)
    (m : List (Nat × List Nat)) (hlt : index < t.nodes.length) :
    (mget (traceNodeAux t (fuel + 1) index m) index).isSome := by
  show (mget (if t.nodes.length ≤ index then m else _) index).isSome
  rw [if_neg (by omega)]
  by_cases h0 : index = 0
  · simp only [h0, if_pos rfl]
    exact insertNodeCopy_isSome_self t m 0 (by omega)
  · simp only [if_neg h0]
    exact traceNodeAux_isSome t fuel _ _ index
      (insertNodeCopy_isSome t _ _ index (insertNodeCopy_isSome_self t m index hlt))

end Itsuku

namespace Itsuku

/-- The trace recursion always reaches and inserts the root (index 0) when
given enough fuel (`index + 1` suffices since the parent index halves). -/
theorem traceNodeAux_root (t : MerkleTree) :
    ∀ (index : Nat) (fuel : Nat) (m : List (Nat × List Nat)),
      index < fuel → index < t.nodes.length → 0 < t.nodes.length →
      (mget (traceNodeAux t fuel index m) 0).isSome := by
  intro index
  induction index using Nat.strong_induction_on with
  | _ index ih =>
      intro fuel m hfuel hlt hpos
      obtain ⟨fuel2, rfl⟩ : ∃ f, fuel = f + 1 := ⟨fuel - 1, by omega⟩
      show (mget (if t.nodes.length ≤ index then m else _) 0).isSome
      rw [if_neg (by omega)]
      by_cases h0 : index = 0
      · simp only [h0, if_pos rfl]
        exact insertNodeCopy_isSome_self t m 0 (by omega)
      · simp only [if_neg h0]
        have hparent : (index - 1) / 2 < index := by omega
        exact ih ((index - 1) / 2) hparent fuel2 _ (by omega) (by omega) hpos

theorem traceNode_root (t : MerkleTree) (index : Nat) (m : List (Nat × List Nat))
    (hlt : index < t.nodes.length) (hpos : 0 < t.nodes.length) :
    (mget (t.traceNode index m) 0).isSome :=
  traceNodeAux_root t index (index + 1) m (by omega) hlt hpos

/-- Presence and node-value invariants transported through the opening fold
of `Proof__search`. -/
theorem opening_fold_allKV (t : MerkleTree) (memory_size : Nat) :
    ∀ (sel : List Nat) (om : List (Nat × List Nat)),
      AllKV om (fun j => t.nodes.getD j []) →
      AllKV (sel.foldl (fun o k => t.traceNode (memory_size - 1 + k) o) om)
        (fun j => t.nodes.getD j []) := by
  intro sel
  induction sel with
  | nil => intro om h; exact h
  | cons k rest ih =>
      intro om h
      exact ih _ (traceNodeAux_allKV t _ _ om h)

theorem opening_fold_isSome (t : MerkleTree) (memory_size : Nat) :
    ∀ (sel : List Nat) (om : List (Nat × List Nat)) (k : Nat),
      (mget om k).isSome →
      (mget (sel.foldl (fun o k2 => t.traceNode (memory_size - 1 + k2) o) om) k).isSome := by
  intro sel
  induction sel with
  | nil => intro om k h; exact h
  | cons k2 rest ih =>
      intro om k h
      exact ih _ k (traceNodeAux_isSome t _ _ om k h)

theorem opening_fold_mem_isSome (t : MerkleTree) (memory_size : Nat) :
    ∀ (sel : List Nat) (om : List (Nat × List Nat)) (k : Nat), k ∈ sel →
      memory_size - 1 + k < t.nodes.length →
      (mget (sel.foldl (fun o k2 => t.traceNode (memory_size - 1 + k2) o) om)
        (memory_size - 1 + k)).isSome := by
  intro sel
  induction sel with
  | nil => intro om k h; simp at h
  | cons k2 rest ih =>
      intro om k hmem hlt
      by_cases hk : k = k2
      · subst hk
        exact opening_fold_isSome t memory_size rest _ _
          (traceNodeAux_isSome_self t _ _ om hlt)
      · have hmem2 : k ∈ rest := by
          rcases List.mem_cons.mp hmem with h | h
          · exact absurd h hk
          · exact h
        exact ih _ k hmem2 hlt

theorem opening_fold_root_isSome (t : MerkleTree) (memory_size : Nat)
    (sel : List Nat) (om : List (Nat × List Nat)) (k : Nat) (hmem : k ∈ sel)
    (hlt : memory_size - 1 + k < t.nodes.length) (hpos : 0 < t.nodes.length) :
    (mget (sel.foldl (fun o k2 => t.traceNode (memory_size - 1 + k2) o) om) 0).isSome := by
  induction sel generalizing om with
  | nil => simp at hmem
  | cons k2 rest ih =>
      by_cases hr : k ∈ rest
      · exact ih (t.traceNode (memory_size - 1 + k2) om) hr
      · have hk : k = k2 := by
          rcases List.mem_cons.mp hmem with h | h
          · exact h
          · exact absurd h hr
        subst hk
        exact opening_fold_isSome t memory_size rest _ 0
          (traceNode_root t (memory_size - 1 + k) om hlt hpos)

end Itsuku

namespace Itsuku

/-! ### Merkle-build value lemmas. -/

theorem foldl_set_length {α : Type} (f : Nat → α) (pos : Nat → Nat) :
    ∀ (l : List Nat) (nodes : List α),
      (l.foldl (fun nd i => nd.set (pos i) (f i)) nodes).length = nodes.length := by
  intro l
  induction l with
  | nil => intro nodes; rfl
  | cons x rest ih =>
      intro nodes
      show (rest.foldl _ (nodes.set (pos x) (f x))).length = _
      rw [ih]
      simp

theorem foldl_set_range_getD {α : Type} (f : Nat → α) (base : Nat) (d : α) :
    ∀ (count : Nat) (nodes : List α), base + count ≤ nodes.length →
      ∀ i, i < count →
        (((List.range count).foldl (fun nd j => nd.set (base + j) (f j)) nodes).getD
          (base + i) d) = f i := by
  intro count
  induction count with
  | zero => intro nodes _ i hi; omega
  | succ count ih =>
      intro nodes hlen i hi
      rw [List.range_succ, List.foldl_append]
      simp only [List.foldl_cons, List.foldl_nil]
      by_cases hic : i = count
      · subst hic
        apply getD_set_self
        rw [foldl_set_length]
        omega
      · rw [getD_set_ne _ _ _ _ _ (by omega)]
        exact ih nodes (by omega) i (by omega)

theorem foldl_set_range_getD_high {α : Type} (f : Nat → α) (base : Nat) (d : α) :
    ∀ (count : Nat) (nodes : List α) (j : Nat), base + count ≤ j →
      (((List.range count).foldl (fun nd i => nd.set (base + i) (f i)) nodes).getD j d)
        = nodes.getD j d := by
  intro count
  induction count with
  | zero => intro nodes j _; rfl
  | succ count ih =>
      intro nodes j hj
      rw [List.range_succ, List.foldl_append]
      simp only [List.foldl_cons, List.foldl_nil]
      rw [getD_set_ne _ _ _ _ _ (by omega)]
      exact ih nodes j (by omega)

theorem interStep_length (H : List Nat → Nat → List Nat) (challenge : List Nat)
    (node_size : Nat) (nodes : List (List Nat)) (p : Nat) :
    (interStep H challenge node_size nodes p).length = nodes.length := by
  simp [interStep]

theorem interDown_length (H : List Nat → Nat → List Nat) (challenge : List Nat)
    (node_size : Nat) :
    ∀ (p : Nat) (nodes : List (List Nat)),
      (interDown H challenge node_size p nodes).length = nodes.length := by
  intro p
  induction p with
  | zero => intro nodes; rfl
  | succ p ih =>
      intro nodes
      show (interDown H challenge node_size p _).length = _
      rw [ih, interStep_length]

theorem interDown_getD_high (H : List Nat → Nat → List Nat) (challenge : List Nat)
    (node_size : Nat) (d : List Nat) :
    ∀ (p : Nat) (nodes : List (List Nat)) (j : Nat), p < j →
      (interDown H challenge node_size p nodes).getD j d = nodes.getD j d := by
  intro p
  induction p with
  | zero => intro nodes j _; rfl
  | succ p ih =>
      intro nodes j hj
      show (interDown H challenge node_size p _).getD j d = _
      rw [ih _ j (by omega)]
      unfold interStep
      rw [getD_set_ne _ _ _ _ _ (by omega)]

theorem computeIntermediates_getD_high (H : List Nat → Nat → List Nat)
    (challenge : List Nat) (element_count node_size : Nat) (nodes : List (List Nat))
    (j : Nat) (hT : 2 ≤ element_count) (hj : element_count - 1 ≤ j) :
    (computeIntermediates H challenge element_count node_size nodes).getD j []
      = nodes.getD j [] := by
  unfold computeIntermediates
  rw [if_neg (by omega)]
  unfold interStep
  rw [getD_set_ne _ _ _ _ _ (by omega)]
  exact interDown_getD_high H challenge node_size [] (element_count - 2) nodes j (by omega)

theorem buildTree_length (H : List Nat → Nat → List Nat) (NS : Config → Nat)
    (cfg : Config) (challenge : List Nat) (mem : Memory) :
    (MerkleTree.build H NS cfg challenge mem).nodes.length
      = 2 * (cfg.chunk_count * cfg.chunk_size) - 1 := by
  show (computeIntermediates _ _ _ _ _).length = _
  unfold computeIntermediates
  split
  · unfold computeLeafHashes
    rw [foldl_set_length]
    simp
  · rw [interStep_length, interDown_length]
    unfold computeLeafHashes
    rw [foldl_set_length]
    simp

/-- In the built tree, the leaf node `T − 1 + i` holds the leaf hash of
memory element `i`. -/
theorem buildTree_leaf (H : List Nat → Nat → List Nat) (NS : Config → Nat)
    (cfg : Config) (challenge : List Nat) (i : Nat)
    (hT : 2 ≤ cfg.chunk_count * cfg.chunk_size)
    (hi : i < cfg.chunk_count * cfg.chunk_size) :
    (MerkleTree.build H NS cfg challenge (Memory.buildAll H cfg challenge)).nodes.getD
        (cfg.chunk_count * cfg.chunk_size - 1 + i) []
      = computeLeafHash H challenge
          (searchGetElement (Memory.buildAll H cfg challenge) i) (NS cfg) := by
  show (computeIntermediates _ _ _ _ _).getD _ [] = _
  rw [computeIntermediates_getD_high _ _ _ _ _ _ hT (by omega)]
  unfold computeLeafHashes
  have hmc : (Memory.buildAll H cfg challenge).config = cfg := rfl
  rw [hmc]
  have := foldl_set_range_getD
    (fun j => computeLeafHash H challenge (searchGetElement (Memory.buildAll H cfg challenge) j) (NS cfg))
    (cfg.chunk_count * cfg.chunk_size - 1) []
    (cfg.chunk_count * cfg.chunk_size)
    (List.replicate (2 * (cfg.chunk_count * cfg.chunk_size) - 1) (List.replicate (NS cfg) 0))
    (by simp; omega) i hi
  exact this

end Itsuku

namespace Itsuku

/-! ### Walk and search lemmas. -/

theorem omegaWalk_length (H : List Nat → Nat → List Nat) (challenge : List Nat)
    (getElem : Nat → Element) (memory_size : Nat) :
    ∀ (steps : Nat) (y : List Nat),
      (omegaWalk H challenge getElem memory_size steps y).1.length = steps := by
  intro steps
  induction steps with
  | zero => intro y; rfl
  | succ steps ih => intro y; simp [omegaWalk, ih]

theorem omegaWalk_sel_lt (H : List Nat → Nat → List Nat) (challenge : List Nat)
    (getElem : Nat → Element) (memory_size : Nat) (hms : 0 < memory_size) :
    ∀ (steps : Nat) (y : List Nat),
      ∀ idx ∈ (omegaWalk H challenge getElem memory_size steps y).1, idx < memory_size := by
  intro steps
  induction steps with
  | zero => intro y idx h; simp [omegaWalk] at h
  | succ steps ih =>
      intro y idx h
      simp only [omegaWalk, List.mem_cons] at h
      rcases h with h | h
      · rw [h]
        exact Nat.mod_lt _ hms
      · exact ih _ idx h

theorem omegaWalk_congr (H : List Nat → Nat → List Nat) (challenge : List Nat)
    (g1 g2 : Nat → Element) (memory_size : Nat) :
    ∀ (steps : Nat) (y : List Nat),
      (∀ idx ∈ (omegaWalk H challenge g1 memory_size steps y).1, g1 idx = g2 idx) →
      omegaWalk H challenge g1 memory_size steps y
        = omegaWalk H challenge g2 memory_size steps y := by
  intro steps
  induction steps with
  | zero => intro y _; rfl
  | succ steps ih =>
      intro y hagree
      have hhead : g1 (u64FromLeBytes y % memory_size) = g2 (u64FromLeBytes y % memory_size) := by
        apply hagree
        simp [omegaWalk]
      show (_ :: (omegaWalk H challenge g1 memory_size steps _).1,
            _ :: (omegaWalk H challenge g1 memory_size steps _).2) = _
      rw [hhead]
      rw [ih _ (fun idx hmem => hagree idx (by simp [omegaWalk, hhead]; right; exact hmem))]
      rfl

theorem calculateOmega_congr (H : List Nat → Nat → List Nat) (cfg : Config)
    (challenge : List Nat) (g1 g2 : Nat → Element) (root_hash : List Nat)
    (memory_size nonce : Nat)
    (hagree : ∀ idx ∈ (calculateOmega H cfg challenge g1 root_hash memory_size nonce).2.1,
        g1 idx = g2 idx) :
    calculateOmega H cfg challenge g1 root_hash memory_size nonce
      = calculateOmega H cfg challenge g2 root_hash memory_size nonce := by
  simp only [calculateOmega] at hagree ⊢
  rw [omegaWalk_congr H challenge g1 g2 memory_size cfg.search_length _ hagree]

theorem searchFrom_eq_some (H : List Nat → Nat → List Nat) (cfg : Config)
    (challenge : List Nat) (mem : Memory) (tree : MerkleTree) (root_hash : List Nat)
    (memory_size : Nat) :
    ∀ (fuel nonce : Nat) (p : Proof),
      searchFrom H cfg challenge mem tree root_hash memory_size fuel nonce = some p →
      ∃ n0, ¬ (leadingZeros
            (calculateOmega H cfg challenge (searchGetElement mem) root_hash memory_size n0).1
          < cfg.difficulty_bits)
        ∧ p = wonProof H cfg challenge mem tree root_hash memory_size n0 := by
  intro fuel
  induction fuel with
  | zero => intro nonce p h; simp [searchFrom] at h
  | succ fuel ih =>
      intro nonce p h
      unfold searchFrom at h
      by_cases hc : leadingZeros
          (calculateOmega H cfg challenge (searchGetElement mem) root_hash memory_size nonce).1
        < cfg.difficulty_bits
      · rw [if_pos hc] at h
        exact ih (nonce + 1) p h
      · rw [if_neg hc] at h
        exact ⟨nonce, hc, (Option.some.inj h).symm⟩

/-! ### Fold property-transport lemmas. -/

theorem mem_mput {α : Type} :
    ∀ (m : List (Nat × α)) (k : Nat) (v : α) (kv : Nat × α),
      kv ∈ mput m k v → kv ∈ m ∨ kv = (k, v) := by
  intro m
  induction m with
  | nil =>
      intro k v kv h
      simp [mput] at h
      right
      simp [h]
  | cons kv0 rest ih =>
      intro k v kv h
      obtain ⟨k1, v1⟩ := kv0
      by_cases hk : k1 = k
      · simp only [mput, hk, if_pos rfl] at h
        rcases List.mem_cons.mp h with h1 | h1
        · right; simp [h1, hk]
        · left; simp [h1]
      · simp only [mput, if_neg hk] at h
        rcases List.mem_cons.mp h with h1 | h1
        · left; simp [h1]
        · rcases ih k v kv h1 with h2 | h2
          · left; simp [h2]
          · right; exact h2

theorem foldl_mput_pairs_prop {α β : Type} (f : Nat → α → β) (S : Nat → Prop) :
    ∀ (l : List (Nat × α)) (m0 : List (Nat × β)),
      (∀ kv ∈ m0, S kv.1) → (∀ kv ∈ l, S kv.1) →
      ∀ kv ∈ l.foldl (fun m kv => mput m kv.1 (f kv.1 kv.2)) m0, S kv.1 := by
  intro l
  induction l with
  | nil => intro m0 h0 _ kv hkv; exact h0 kv hkv
  | cons kv1 rest ih =>
      intro m0 h0 hl kv hkv
      refine ih (mput m0 kv1.1 (f kv1.1 kv1.2)) ?_ (fun kv2 h2 => hl kv2 (by simp [h2])) kv hkv
      intro kv2 h2
      rcases mem_mput m0 kv1.1 (f kv1.1 kv1.2) kv2 h2 with h3 | h3
      · exact h0 kv2 h3
      · rw [h3]
        exact hl kv1 (by simp)

theorem foldl_mput_pairs_allKV {α β : Type} (f : Nat → α → β) (g : Nat → α) :
    ∀ (l : List (Nat × α)) (m0 : List (Nat × β)),
      AllKV l g → AllKV m0 (fun k => f k (g k)) →
      AllKV (l.foldl (fun m kv => mput m kv.1 (f kv.1 kv.2)) m0) (fun k => f k (g k)) := by
  intro l
  induction l with
  | nil => intro m0 _ h0; exact h0
  | cons kv1 rest ih =>
      intro m0 hl h0
      have hv : kv1.2 = g kv1.1 := hl kv1 (by simp)
      refine ih (mput m0 kv1.1 (f kv1.1 kv1.2)) (fun kv2 h2 => hl kv2 (by simp [h2])) ?_
      rw [hv]
      exact allKV_mput h0 kv1.1

theorem foldl_keys_mput_prop {β : Type} (g : Nat → β) (S : Nat → Prop) :
    ∀ (ks : List Nat) (m0 : List (Nat × β)),
      (∀ kv ∈ m0, S kv.1) → (∀ k ∈ ks, S k) →
      ∀ kv ∈ ks.foldl (fun m x => mput m x (g x)) m0, S kv.1 := by
  intro ks
  induction ks with
  | nil => intro m0 h0 _ kv hkv; exact h0 kv hkv
  | cons x rest ih =>
      intro m0 h0 hl kv hkv
      refine ih (mput m0 x (g x)) ?_ (fun k2 h2 => hl k2 (by simp [h2])) kv hkv
      intro kv2 h2
      rcases mem_mput m0 x (g x) kv2 h2 with h3 | h3
      · exact h0 kv2 h3
      · rw [h3]
        exact hl x (by simp)

theorem checkLeafHashes_none_of (H : List Nat → Nat → List Nat) (challenge : List Nat)
    (opening : List (Nat × List Nat)) (node_size memory_size : Nat) :
    ∀ (pm : List (Nat × Element)),
      (∀ kv ∈ pm, ∃ opened, mget opening (memory_size - 1 + kv.1) = some opened
        ∧ opened.take node_size = (computeLeafHash H challenge kv.2 node_size).take node_size) →
      checkLeafHashes H challenge opening node_size memory_size pm = none := by
  intro pm
  induction pm with
  | nil => intro; rfl
  | cons kv rest ih =>
      intro h
      obtain ⟨k, v⟩ := kv
      obtain ⟨opened, hget, heq⟩ := h (k, v) (by simp)
      show (match mget opening (memory_size - 1 + k) with
            | none => some VerificationError.MissingOpeningForLeaf
            | some opened =>
                if opened.take node_size
                    = (computeLeafHash H challenge v node_size).take node_size then
                  checkLeafHashes H challenge opening node_size memory_size rest
                else some VerificationError.LeafHashMismatch) = none
      rw [hget]
      simp only [heq, if_pos rfl]
      exact ih (fun kv2 h2 => h kv2 (by simp [h2]))

end Itsuku

namespace Itsuku

/-- Stage-1 reconstruction of a traced leaf recovers the built memory element
(valid for `antecedent_count ≥ 2`; for `antecedent_count = 1` the verifier
misclassifies compressed leaves, see the C1 counterexample). -/
theorem recon_trace_eq (H : List Nat → Nat → List Nat) (cfg : Config)
    (challenge : List Nat) (k : Nat)
    (hk : k < cfg.chunk_count * cfg.chunk_size)
    (hl : 0 < cfg.chunk_size)
    (hn2 : 2 ≤ cfg.antecedent_count) :
    reconElem H cfg challenge k ((Memory.buildAll H cfg challenge).traceElement k)
      = searchGetElement (Memory.buildAll H cfg challenge) k := by
  have hc : k / cfg.chunk_size < cfg.chunk_count := div_lt_of_lt_mul' k _ _ hk
  have hm : k % cfg.chunk_size < cfg.chunk_size := Nat.mod_lt _ hl
  have hdm : k / cfg.chunk_size * cfg.chunk_size + k % cfg.chunk_size = k := by
    rw [Nat.mul_comm]
    exact Nat.div_add_mod k cfg.chunk_size
  have hchunk : (Memory.buildAll H cfg challenge).chunks.getD (k / cfg.chunk_size) []
      = buildChunk H cfg challenge (k / cfg.chunk_size) := by
    show ((List.range cfg.chunk_count).map (buildChunk H cfg challenge)).getD
        (k / cfg.chunk_size) [] = _
    exact getD_range_map (buildChunk H cfg challenge) cfg.chunk_count (k / cfg.chunk_size) hc []
  have hmemk : searchGetElement (Memory.buildAll H cfg challenge) k
      = (buildChunk H cfg challenge (k / cfg.chunk_size)).getD (k % cfg.chunk_size) elemZero := by
    conv_lhs => rw [← hdm]
    exact memGet_chunk H cfg challenge _ _ hc hm
  have hcfg : (Memory.buildAll H cfg challenge).config = cfg := rfl
  simp only [Memory.traceElement, hcfg]
  rw [hchunk]
  rw [if_neg (by omega)]
  by_cases hseed : k % cfg.chunk_size < cfg.antecedent_count
  · rw [if_pos hseed]
    unfold reconElem
    simp only [hseed, if_pos rfl]
    rw [hmemk]
    rfl
  · rw [if_neg hseed]
    unfold reconElem
    simp only [hseed, if_false]
    rw [if_neg (by omega)]
    rw [hmemk]
    have hcomp := buildChunk_compress H cfg challenge (k / cfg.chunk_size)
      (k % cfg.chunk_size) (by omega) hm (by omega)
    rw [hcomp, hdm]

end Itsuku

namespace Itsuku

theorem collect_fst_all (mem : Memory) :
    ∀ (sel : List Nat) (m0 : List (Nat × List Element)),
      (∀ k ∈ sel, 0 < (mem.traceElement k).length) →
      sel.foldl
          (fun a k =>
            if 0 < (mem.traceElement k).length then mput a k (mem.traceElement k) else a)
          m0
        = sel.foldl (fun a k => mput a k (mem.traceElement k)) m0 := by
  intro sel
  induction sel with
  | nil => intro m0 _; rfl
  | cons k rest ih =>
      intro m0 h
      rw [List.foldl_cons, List.foldl_cons, if_pos (h k (by simp))]
      exact ih _ (fun k2 h2 => h k2 (by simp [h2]))

/-- Any proof assembled by `Proof__search` for a winning nonce verifies Ok,
for `antecedent_count ≥ 2`. -/
theorem wonProof_verify_ok (H : List Nat → Nat → List Nat) (NS : Config → Nat)
    (cfg : Config) (challenge : List Nat) (nonce : Nat)
    (hT : 2 ≤ cfg.chunk_count * cfg.chunk_size)
    (hn2 : 2 ≤ cfg.antecedent_count)
    (hL : 1 ≤ cfg.search_length)
    (hdiff : ¬ (leadingZeros
        (calculateOmega H cfg challenge
          (searchGetElement (Memory.buildAll H cfg challenge))
          (extendRoot (NS cfg)
            ((MerkleTree.build H NS cfg challenge (Memory.buildAll H cfg challenge)).nodes.getD 0 []))
          (cfg.chunk_count * cfg.chunk_size) nonce).1
      < cfg.difficulty_bits)) :
    Proof.verify H NS
      (wonProof H cfg challenge (Memory.buildAll H cfg challenge)
        (MerkleTree.build H NS cfg challenge (Memory.buildAll H cfg challenge))
        (extendRoot (NS cfg)
          ((MerkleTree.build H NS cfg challenge (Memory.buildAll H cfg challenge)).nodes.getD 0 []))
        (cfg.chunk_count * cfg.chunk_size) nonce)
      = .Ok := by
  set mem := Memory.buildAll H cfg challenge with hmem
  set tree := MerkleTree.build H NS cfg challenge mem with htree
  set ms := cfg.chunk_count * cfg.chunk_size with hms
  set root0 := tree.nodes.getD 0 [] with hroot0
  set root_hash := extendRoot (NS cfg) root0 with hrh
  have hl : 0 < cfg.chunk_size := by
    rcases Nat.eq_zero_or_pos cfg.chunk_size with h | h
    · rw [hms, h] at hT
      simp at hT
    · exact h
  have hmspos : 0 < ms := by omega
  have htreelen : tree.nodes.length = 2 * ms - 1 := buildTree_length H NS cfg challenge mem
  set r := calculateOmega H cfg challenge (searchGetElement mem) root_hash ms nonce with hr
  set sel := r.2.1 with hsel
  have hsel_walk : sel = (omegaWalk H challenge (searchGetElement mem) ms cfg.search_length
      (H (u64ToLeBytes nonce ++ root_hash ++ challenge) 64)).1 := rfl
  have hsel_lt : ∀ k ∈ sel, k < ms := by
    rw [hsel_walk]
    exact omegaWalk_sel_lt H challenge (searchGetElement mem) ms hmspos _ _
  have hsel_len : sel.length = cfg.search_length := by
    rw [hsel_walk]
    exact omegaWalk_length H challenge (searchGetElement mem) ms _ _
  have htrace_pos : ∀ k ∈ sel, 0 < (mem.traceElement k).length := by
    intro k hk
    exact traceElement_length_pos mem k (hsel_lt k hk) hl
      (by show 1 ≤ cfg.antecedent_count; omega)
  set p := wonProof H cfg challenge mem tree root_hash ms nonce with hp
  set am := sel.foldl (fun a k => mput a k (mem.traceElement k)) [] with ham
  set om := sel.foldl (fun o k => tree.traceNode (ms - 1 + k) o) [] with hom
  have hpla : p.leaf_antecedents = am := by
    show (collectProofMaps mem tree ms sel ([], [])).1 = am
    rw [collect_fst mem tree ms sel [] [], collect_fst_all mem sel [] htrace_pos]
  have hpop : p.tree_opening = om := by
    show (collectProofMaps mem tree ms sel ([], [])).2 = om
    rw [collect_snd mem tree ms sel [] []]
  have ham_allKV : AllKV am mem.traceElement :=
    foldl_mput_keys_allKV mem.traceElement sel [] (allKV_nil _)
  have ham_keys : ∀ kv ∈ am, kv.1 ∈ sel := by
    apply foldl_keys_mput_prop mem.traceElement (fun k => k ∈ sel) sel []
    · intro kv hkv
      simp at hkv
    · intro k hk
      exact hk
  have ham_isSome : ∀ k ∈ sel, (mget am k).isSome := by
    intro k hk
    rw [ham, foldl_mput_keys_isSome]
    simp only [mget, Option.isSome_none, Bool.false_or]
    rw [List.any_eq_true]
    exact ⟨k, hk, by simp⟩
  have hom_allKV : AllKV om (fun j => tree.nodes.getD j []) :=
    opening_fold_allKV tree ms sel [] (allKV_nil _)
  have hom_leaf : ∀ k ∈ sel, (mget om (ms - 1 + k)).isSome := by
    intro k hk
    apply opening_fold_mem_isSome tree ms sel [] k hk
    rw [htreelen]
    have := hsel_lt k hk
    omega
  have hom_root : (mget om 0).isSome := by
    have hne : sel ≠ [] := by
      intro hcon
      have h0 : sel.length = 0 := by rw [hcon]; rfl
      omega
    obtain ⟨k0, rest0, hk0⟩ := List.exists_cons_of_ne_nil hne
    apply opening_fold_root_isSome tree ms sel [] k0 (by rw [hk0]; simp)
    · rw [htreelen]
      have := hsel_lt k0 (by rw [hk0]; simp)
      omega
    · rw [htreelen]
      omega
  set pm := am.foldl
      (fun m kv => mput m kv.1 (reconElem H cfg challenge kv.1 kv.2)) [] with hpmdef
  have hbm : buildPartialMemory H cfg challenge p.leaf_antecedents [] = .ok pm := by
    rw [hpla]
    exact buildPartialMemory_ok H cfg challenge am []
  have hpm_allKV : AllKV pm (fun k => reconElem H cfg challenge k (mem.traceElement k)) :=
    foldl_mput_pairs_allKV _ mem.traceElement am [] ham_allKV (allKV_nil _)
  have hpm_keys : ∀ kv ∈ pm, kv.1 ∈ sel := by
    apply foldl_mput_pairs_prop _ (fun k => k ∈ sel) am []
    · intro kv hkv
      simp at hkv
    · exact ham_keys
  have hpm_isSome : ∀ k ∈ sel, (mget pm k).isSome := by
    intro k hk
    rw [hpmdef, mget_foldl_mput_isSome]
    simp only [mget, Option.isSome_none, Bool.false_or]
    rw [List.any_eq_true]
    obtain ⟨v, hv⟩ := Option.isSome_iff_exists.mp (ham_isSome k hk)
    exact ⟨(k, v), mget_mem am k v hv, by simp⟩
  have hrecon : ∀ k ∈ sel, reconElem H cfg challenge k (mem.traceElement k)
      = searchGetElement mem k := by
    intro k hk
    exact recon_trace_eq H cfg challenge k (hsel_lt k hk) hl hn2
  have hpm_val : ∀ k ∈ sel, mget pm k = some (searchGetElement mem k) := by
    intro k hk
    obtain ⟨v, hv⟩ := Option.isSome_iff_exists.mp (hpm_isSome k hk)
    rw [hv]
    rw [allKV_mget hpm_allKV k v hv, hrecon k hk]
  have hcheck : checkLeafHashes H challenge om (NS cfg) ms pm = none := by
    apply checkLeafHashes_none_of
    intro kv hkv
    have hks : kv.1 ∈ sel := hpm_keys kv hkv
    have hklt : kv.1 < ms := hsel_lt kv.1 hks
    obtain ⟨opened, hopen⟩ := Option.isSome_iff_exists.mp (hom_leaf kv.1 hks)
    refine ⟨opened, hopen, ?_⟩
    rw [allKV_mget hom_allKV _ opened hopen]
    have hleaf : tree.nodes.getD (ms - 1 + kv.1) []
        = computeLeafHash H challenge (searchGetElement mem kv.1) (NS cfg) :=
      buildTree_leaf H NS cfg challenge kv.1 hT hklt
    rw [hleaf]
    have hv : kv.2 = reconElem H cfg challenge kv.1 (mem.traceElement kv.1) :=
      hpm_allKV kv hkv
    rw [hv, hrecon kv.1 hks]
  obtain ⟨root0v, hrootget⟩ := Option.isSome_iff_exists.mp hom_root
  have hrootval : root0v = root0 := allKV_mget hom_allKV 0 root0v hrootget
  have hagree : ∀ idx ∈ r.2.1, searchGetElement mem idx = getElementCopyForVerify pm idx := by
    intro idx hidx
    unfold getElementCopyForVerify
    rw [hpm_val idx hidx]
    rfl
  have hwalk : calculateOmega H cfg challenge (getElementCopyForVerify pm) root_hash ms nonce
      = r := by
    rw [hr]
    exact (calculateOmega_congr H cfg challenge (searchGetElement mem)
      (getElementCopyForVerify pm) root_hash ms nonce hagree).symm
  have hany : (sel.any (fun idx => (mget p.leaf_antecedents idx).isNone)) = false := by
    rw [List.any_eq_false]
    intro idx hidx
    rw [hpla]
    obtain ⟨v, hv⟩ := Option.isSome_iff_exists.mp (ham_isSome idx hidx)
    simp [hv]
  rw [verify_eq_stage2 H NS p pm hbm]
  have hpc : p.config = cfg := rfl
  have hpch : p.challenge_id = challenge := rfl
  have hpn : p.nonce = nonce := rfl
  rw [hpc, hpch, hpn, hpop]
  rw [← hms, hcheck]
  simp only
  rw [hrootget]
  simp only
  rw [hrootval, ← hrh, hwalk]
  rw [← hsel]
  rw [hany]
  simp only [Bool.false_eq_true, if_false]
  rw [if_neg hdiff]

end Itsuku

namespace Itsuku

set_option maxRecDepth 100000 in
/-- C1 counterexample: with `antecedent_count = 1` (allowed by the claim's
`n ≥ 1`), the search on the fully built `cfg1x` instance returns a proof whose
walk visits the compressed leaf 1; verification misclassifies it as a
seed-class leaf (the `ante_count == 1` branch), reconstructs the wrong
element, and returns `LeafHashMismatch` instead of Ok. -/
theorem c1_round_trip_counterexample :
    Proof.search Hsum cfg1x [] mem1x tree1x = some foundProof1x ∧
    cfg1x.antecedent_count = 1 ∧
    2 ≤ cfg1x.chunk_count * cfg1x.chunk_size ∧
    cfg1x.antecedent_count ≤ cfg1x.chunk_size ∧
    1 ≤ cfg1x.search_length ∧
    Proof.verify Hsum NS1 foundProof1x = .LeafHashMismatch ∧
    Proof.verify Hsum NS1 foundProof1x ≠ .Ok := by
  decide

/-- C1 (amended): for every configuration with `T = P·l ≥ 2`, `n ≥ 2`
(rather than the claimed `n ≥ 1`), `n ≤ l`, `L ≥ 1`, every challenge id, and
the memory and Merkle tree fully built for them, if `proof_search` returns a
proof then `proof_verify` on that proof returns Ok. -/
theorem c1_round_trip_n_ge_two :
    ∀ (H : List Nat → Nat → List Nat) (NS : Config → Nat) (cfg : Config)
      (challenge : List Nat) (p : Proof),
      2 ≤ cfg.chunk_count * cfg.chunk_size →
      2 ≤ cfg.antecedent_count →
      cfg.antecedent_count ≤ cfg.chunk_size →
      1 ≤ cfg.search_length →
      Proof.search H cfg challenge (Memory.buildAll H cfg challenge)
          (MerkleTree.build H NS cfg challenge (Memory.buildAll H cfg challenge))
        = some p →
      Proof.verify H NS p = .Ok := by
  intro H NS cfg challenge p hT hn2 hnl hL hsearch
  simp only [Proof.search] at hsearch
  rcases hg : (MerkleTree.build H NS cfg challenge (Memory.buildAll H cfg challenge)).getNode? 0
    with _ | root0
  · rw [hg] at hsearch
    simp at hsearch
  · rw [hg] at hsearch
    simp only at hsearch
    obtain ⟨n0, hd, hpe⟩ := searchFrom_eq_some H cfg challenge
      (Memory.buildAll H cfg challenge)
      (MerkleTree.build H NS cfg challenge (Memory.buildAll H cfg challenge))
      (extendRoot
        (MerkleTree.build H NS cfg challenge (Memory.buildAll H cfg challenge)).node_size root0)
      (cfg.chunk_count * cfg.chunk_size) (two64 - 2) 1 p hsearch
  
    have hlenpos :
        0 < (MerkleTree.build H NS cfg challenge (Memory.buildAll H cfg challenge)).nodes.length := by
      rw [buildTree_length]
      omega
    have hr0 : root0
        = (MerkleTree.build H NS cfg challenge (Memory.buildAll H cfg challenge)).nodes.getD 0 [] := by
      unfold MerkleTree.getNode? at hg
      rw [get?_eq_some_getD _ 0 [] hlenpos] at hg
      exact (Option.some.inj hg).symm
    rw [hr0] at hd hpe
    rw [hpe]
    exact wonProof_verify_ok H NS cfg challenge n0 hT hn2 hL hd

/-- C1 witness: the round-trip theorem applied at the concrete `cfg2`
instance. -/
theorem c1_round_trip_n_ge_two_witness :
    Proof.verify Hc0 NS1 foundProof2 = .Ok :=
  c1_round_trip_n_ge_two Hc0 NS1 cfg2 [] foundProof2
    (by decide) (by decide) (by decide) (by decide) (by decide)

end Itsuku

namespace Itsuku

/-! ### Key-set lemmas for the antecedent map (claim C3). -/

theorem mput_keys {α : Type} :
    ∀ (m : List (Nat × α)) (k : Nat) (v : α),
      (mput m k v).map Prod.fst
        = if (mget m k).isSome then m.map Prod.fst else m.map Prod.fst ++ [k] := by
  intro m
  induction m with
  | nil => intro k v; simp [mput, mget]
  | cons kv0 rest ih =>
      intro k v
      obtain ⟨k1, v1⟩ := kv0
      by_cases hk : k1 = k
      · simp [mput, mget, hk]
      · simp only [mput, mget, if_neg hk, List.map_cons, ih]
        split <;> simp

theorem mget_isSome_iff_mem_keys {α : Type} :
    ∀ (m : List (Nat × α)) (k : Nat), (mget m k).isSome ↔ k ∈ m.map Prod.fst := by
  intro m
  induction m with
  | nil => intro k; simp [mget]
  | cons kv0 rest ih =>
      intro k
      obtain ⟨k1, v1⟩ := kv0
      by_cases hk : k1 = k
      · simp [mget, hk]
      · simp [mget, hk, ih]
        intro hkk
        exact absurd hkk.symm hk

theorem mput_keys_nodup {α : Type} (m : List (Nat × α)) (k : Nat) (v : α)
    (h : (m.map Prod.fst).Nodup) : ((mput m k v).map Prod.fst).Nodup := by
  rw [mput_keys]
  split
  · exact h
  · rename_i hnone
    have hnm : k ∉ m.map Prod.fst := by
      intro hmem
      exact hnone ((mget_isSome_iff_mem_keys m k).mpr hmem)
    simp [List.nodup_append, h, hnm]

theorem foldl_mput_length_toFinset {β : Type} (g : Nat → β) :
    ∀ (ks : List Nat) (m0 : List (Nat × β)), (m0.map Prod.fst).Nodup →
      (ks.foldl (fun m x => mput m x (g x)) m0).length
          = ((m0.map Prod.fst).toFinset ∪ ks.toFinset).card ∧
        ((ks.foldl (fun m x => mput m x (g x)) m0).map Prod.fst).Nodup := by
  intro ks
  induction ks with
  | nil =>
      intro m0 h
      constructor
      · simp only [List.foldl_nil, List.toFinset_nil, Finset.union_empty]
        rw [List.toFinset_card_of_nodup h, List.length_map]
      · exact h
  | cons x rest ih =>
      intro m0 h
      have h2 := mput_keys_nodup m0 x (g x) h
      obtain ⟨ihlen, ihnodup⟩ := ih (mput m0 x (g x)) h2
      refine ⟨?_, ihnodup⟩
      rw [List.foldl_cons, ihlen]
      have hkeys : ((mput m0 x (g x)).map Prod.fst).toFinset
          = insert x (m0.map Prod.fst).toFinset := by
        rw [mput_keys]
        split
        · rename_i hsome
          have hmem : x ∈ m0.map Prod.fst := (mget_isSome_iff_mem_keys m0 x).mp hsome
          rw [Finset.insert_eq_self.mpr (by simp [hmem])]
        · simp [List.toFinset_append, Finset.union_comm, Finset.insert_eq]
      rw [hkeys, List.toFinset_cons, Finset.insert_union, Finset.union_insert]

/-- C3 counterexample: on the `cfg3` instance (`T = 2`, `L = 3`) the winning
walk necessarily repeats leaf indices, and `leaf_antecedents` holds a single
entry instead of the claimed `L = 3`. -/
theorem c3_exactly_L_entries_counterexample :
    Proof.search Hc0 cfg3 [] mem3 tree3 = some foundProof3 ∧
    cfg3.search_length = 3 ∧
    foundProof3.leaf_antecedents.length = 1 ∧
    foundProof3.leaf_antecedents.length ≠ cfg3.search_length := by
  decide

/-- C3 (amended): for every proof returned by a successful `proof_search`,
the keys of `leaf_antecedents` are exactly the distinct leaf indices selected
by the winning nonce's walk, each in `[0, T)`; the map holds one entry per
distinct selected index, so its size is the number of distinct indices, at
most `L` (with equality exactly when the `L` selections are distinct, which a
repeated index can violate). -/
theorem c3_leaf_antecedents_keys :
    ∀ (H : List Nat → Nat → List Nat) (NS : Config → Nat) (cfg : Config)
      (challenge : List Nat) (p : Proof),
      2 ≤ cfg.chunk_count * cfg.chunk_size →
      1 ≤ cfg.antecedent_count →
      1 ≤ cfg.search_length →
      Proof.search H cfg challenge (Memory.buildAll H cfg challenge)
          (MerkleTree.build H NS cfg challenge (Memory.buildAll H cfg challenge))
        = some p →
      ∃ sel : List Nat,
        sel = (calculateOmega H cfg challenge
            (searchGetElement (Memory.buildAll H cfg challenge))
            (extendRoot (NS cfg)
              ((MerkleTree.build H NS cfg challenge
                (Memory.buildAll H cfg challenge)).nodes.getD 0 []))
            (cfg.chunk_count * cfg.chunk_size) p.nonce).2.1 ∧
        sel.length = cfg.search_length ∧
        (∀ k ∈ sel, k < cfg.chunk_count * cfg.chunk_size) ∧
        (∀ k, (mget p.leaf_antecedents k).isSome ↔ k ∈ sel) ∧
        (p.leaf_antecedents.map Prod.fst).Nodup ∧
        p.leaf_antecedents.length = sel.dedup.length ∧
        p.leaf_antecedents.length ≤ cfg.search_length := by
  intro H NS cfg challenge p hT hn1 hL hsearch
  simp only [Proof.search] at hsearch
  rcases hg : (MerkleTree.build H NS cfg challenge (Memory.buildAll H cfg challenge)).getNode? 0
    with _ | root0
  · rw [hg] at hsearch
    simp at hsearch
  · rw [hg] at hsearch
    simp only at hsearch
    obtain ⟨n0, _, hpe⟩ := searchFrom_eq_some H cfg challenge
      (Memory.buildAll H cfg challenge)
      (MerkleTree.build H NS cfg challenge (Memory.buildAll H cfg challenge))
      (extendRoot
        (MerkleTree.build H NS cfg challenge (Memory.buildAll H cfg challenge)).node_size root0)
      (cfg.chunk_count * cfg.chunk_size) (two64 - 2) 1 p hsearch
    have hlenpos :
        0 < (MerkleTree.build H NS cfg challenge (Memory.buildAll H cfg challenge)).nodes.length := by
      rw [buildTree_length]
      omega
    have hr0 : root0
        = (MerkleTree.build H NS cfg challenge (Memory.buildAll H cfg challenge)).nodes.getD 0 [] := by
      unfold MerkleTree.getNode? at hg
      rw [get?_eq_some_getD _ 0 [] hlenpos] at hg
      exact (Option.some.inj hg).symm
    have hns : (MerkleTree.build H NS cfg challenge (Memory.buildAll H cfg challenge)).node_size
        = NS cfg := rfl
    rw [hr0, hns] at hpe
    subst hpe
    set mem := Memory.buildAll H cfg challenge with hmem
    set tree := MerkleTree.build H NS cfg challenge mem with htree
    set ms := cfg.chunk_count * cfg.chunk_size with hms
    set root_hash := extendRoot (NS cfg) (tree.nodes.getD 0 []) with hrh
    set p := wonProof H cfg challenge mem tree root_hash ms n0 with hp
    have hl : 0 < cfg.chunk_size := by
      rcases Nat.eq_zero_or_pos cfg.chunk_size with h | h
      · rw [hms, h] at hT
        simp at hT
      · exact h
    have hmspos : 0 < ms := by omega
    set r := calculateOmega H cfg challenge (searchGetElement mem) root_hash ms n0 with hr
    set sel := r.2.1 with hsel
    have hpn : p.nonce = n0 := rfl
    have hsel_lt : ∀ k ∈ sel, k < ms := by
      show ∀ k ∈ (omegaWalk H challenge (searchGetElement mem) ms cfg.search_length
        (H (u64ToLeBytes n0 ++ root_hash ++ challenge) 64)).1, k < ms
      exact omegaWalk_sel_lt H challenge (searchGetElement mem) ms hmspos _ _
    have hsel_len : sel.length = cfg.search_length := by
      show ((omegaWalk H challenge (searchGetElement mem) ms cfg.search_length
        (H (u64ToLeBytes n0 ++ root_hash ++ challenge) 64)).1).length = _
      exact omegaWalk_length H challenge (searchGetElement mem) ms _ _
    have htrace_pos : ∀ k ∈ sel, 0 < (mem.traceElement k).length := by
      intro k hk
      exact traceElement_length_pos mem k (hsel_lt k hk) hl
        (by show 1 ≤ cfg.antecedent_count; omega)
    have hpla : p.leaf_antecedents
        = sel.foldl (fun a k => mput a k (mem.traceElement k)) [] := by
      show (collectProofMaps mem tree ms sel ([], [])).1 = _
      rw [collect_fst mem tree ms sel [] [], collect_fst_all mem sel [] htrace_pos]
    have hfin := foldl_mput_length_toFinset mem.traceElement sel [] (by simp)
    refine ⟨sel, ?_, hsel_len, hsel_lt, ?_, ?_, ?_, ?_⟩
    · rw [hpn]
    · intro k
      rw [hpla, foldl_mput_keys_isSome]
      simp only [mget, Option.isSome_none, Bool.false_or]
      rw [List.any_eq_true]
      constructor
      · rintro ⟨x, hx, hxk⟩
        simp at hxk
        rwa [← hxk]
      · intro hk
        exact ⟨k, hk, by simp⟩
    · rw [hpla]
      exact hfin.2
    · rw [hpla, hfin.1]
      simp only [List.map_nil, List.toFinset_nil, Finset.empty_union]
      exact List.card_toFinset sel
    · rw [hpla, hfin.1]
      simp only [List.map_nil, List.toFinset_nil, Finset.empty_union]
      rw [List.card_toFinset sel]
      calc sel.dedup.length ≤ sel.length := (List.dedup_sublist sel).length_le
        _ = cfg.search_length := hsel_len

/-- C3 witness: the amended theorem applied at the `cfg3` instance. -/
theorem c3_leaf_antecedents_keys_witness :
    ∃ sel : List Nat,
      sel = (calculateOmega Hc0 cfg3 []
          (searchGetElement (Memory.buildAll Hc0 cfg3 []))
          (extendRoot (NS1 cfg3)
            ((MerkleTree.build Hc0 NS1 cfg3 []
              (Memory.buildAll Hc0 cfg3 [])).nodes.getD 0 []))
          (cfg3.chunk_count * cfg3.chunk_size) foundProof3.nonce).2.1 ∧
      sel.length = cfg3.search_length ∧
      (∀ k ∈ sel, k < cfg3.chunk_count * cfg3.chunk_size) ∧
      (∀ k, (mget foundProof3.leaf_antecedents k).isSome ↔ k ∈ sel) ∧
      (foundProof3.leaf_antecedents.map Prod.fst).Nodup ∧
      foundProof3.leaf_antecedents.length = sel.dedup.length ∧
      foundProof3.leaf_antecedents.length ≤ cfg3.search_length :=
  c3_leaf_antecedents_keys Hc0 NS1 cfg3 [] foundProof3
    (by decide) (by decide) (by decide) (by decide)

end Itsuku
